import Mathlib

/-!
Verification of the metrics collection engine of `github_exporter` (main.go).

The Go program is shallowly embedded:

* Prometheus gauge writes become `Sample` values (metric name, label list,
  value).  Every value the program writes is a small integer (a count, a run
  number, or a one-hot 0/1), so `Int` models the Go `float64` exactly.
* The GitHub API is an explicit parameter: page sources are functions from
  request options to responses.
* The concurrent fan-out of `updateGitHubMetrics` (two nested
  `errgroup.WithContext` groups) becomes an explicit interleaving machine:
  a schedule of choices drives one atomic step of one task at a time.
  `errgroup.WithContext` semantics: the derived context is cancelled the
  first time a function passed to `Go` returns a non-nil error, the group
  records that first error, and `Wait` returns it after all functions have
  returned.  A network call issued on a cancelled context fails with a
  cancellation error.
-/

set_option autoImplicit false

namespace GithubExporter

/-- One gauge write: metric name, label pairs in declaration order, value.
All values written by the program are exact small integers. -/
structure Sample where
  metric : String
  labels : List (String × String)
  value : Int
deriving DecidableEq, Repr

/-- Errors flowing through the collectors.  `api` is a remote-call failure
(the payload distinguishes concrete failures), `canceled` is the error a
network call returns when its context has been cancelled, and `wrapped`
models `fmt.Errorf("label: %w", err)`. -/
inductive Err where
  | api (code : Nat)
  | canceled
  | wrapped (label : String) (e : Err)
deriving DecidableEq, Repr

/-- A repository record, from `github.Repository` as the program reads it:
owner login, name, full name, default branch, private flag, archived flag. -/
structure Repo where
  owner : String
  name : String
  fullName : String
  defaultBranch : String
  priv : Bool
  archived : Bool
deriving DecidableEq, Repr

/-- A workflow run as the program reads it: `GetWorkflowID`,
`GetRunNumber`, `GetConclusion`. -/
structure WorkflowRun where
  workflowID : Int
  runNumber : Int
  conclusion : String
deriving DecidableEq, Repr

/-- A workflow as the program reads it: `GetID`, `GetName`. -/
structure Workflow where
  id : Int
  name : String
deriving DecidableEq, Repr

/-- One node of the GraphQL issue/PR response (`graphQLIssuesResponse`). -/
structure IssueRepoNode where
  nameWithOwner : String
  openIssues : Int
  closedIssues : Int
  openPulls : Int
  closedPulls : Int
deriving DecidableEq, Repr

/-- Label lookup in a label list (first match). -/
def labelValue (k : String) : List (String × String) → Option String
  | [] => none
  | (k', v) :: rest => if k' = k then some v else labelValue k rest

/-- Label lookup on a sample. -/
def Sample.label (s : Sample) (k : String) : Option String :=
  labelValue k s.labels

/-! ## Repo Enumerator: `fetchUserRepos` (main.go lines 190-220) -/

/-- The options record `fetchUserRepos` builds
(`RepositoryListByAuthenticatedUserOptions`). -/
structure RepoListOpts where
  typ : String
  sort : String
  direction : String
  perPage : Nat
  page : Nat
deriving DecidableEq, Repr

/-- The constant part of the request: `Type: "owner", Sort: "full_name",
Direction: "asc", PerPage: 100`; `Page` starts at the Go zero value 0. -/
def userRepoListOpts : RepoListOpts :=
  { typ := "owner", sort := "full_name", direction := "asc", perPage := 100, page := 0 }

/-- A page source: given options, the repository page (entries may be nil,
hence `Option Repo`) and the `NextPage` value, or `none` when the request
fails. -/
def RepoSource : Type := RepoListOpts → Option (List (Option Repo) × Nat)

/-- `fetchUserRepos`: follow `NextPage` until it is 0, appending the non-nil
entries of each page in the order received; fail (returning `none`, no
partial list) if any page request fails.  `fuel` bounds the number of page
requests so the embedding is total; `none` also results if fuel runs out. -/
def fetchUserRepos (source : RepoSource) : Nat → RepoListOpts → Option (List Repo)
  | 0, _ => none
  | fuel + 1, opts =>
    match source opts with
    | none => none
    | some (items, next) =>
      let repos := items.filterMap id
      if next = 0 then some repos
      else
        match fetchUserRepos source fuel { opts with page := next } with
        | none => none
        | some rest => some (repos ++ rest)

/-- The chain of pages the enumerator follows, in request order: the page
answering the current request, then — while `NextPage` is non-zero — the
pages of the successive requests.  This is the specification-side notion of
"the followed pages, in the order the source returns them", against which
`fetchUserRepos` is compared; it collects the raw pages and builds no
result list. -/
def followedPages (source : RepoSource) : Nat → RepoListOpts → Option (List (List (Option Repo)))
  | 0, _ => none
  | fuel + 1, opts =>
    match source opts with
    | none => none
    | some (items, next) =>
      if next = 0 then some [items]
      else (followedPages source fuel { opts with page := next }).map (fun ps => items :: ps)

/-! ## Workflow Collector: `updateWorkflowRunMetrics` (main.go lines 222-273) -/

/-- Association-list lookup keyed by workflow id, mirroring Go map lookup
`latestRuns[workflowID]`. -/
def findEntry (k : Int) : List (Int × WorkflowRun) → Option WorkflowRun
  | [] => none
  | (k', v) :: rest => if k' = k then some v else findEntry k rest

/-- Association-list update keyed by workflow id, mirroring Go map store
`latestRuns[workflowID] = run`. -/
def setEntry (k : Int) (v : WorkflowRun) : List (Int × WorkflowRun) → List (Int × WorkflowRun)
  | [] => [(k, v)]
  | (k', v') :: rest => if k' = k then (k, v) :: rest else (k', v') :: setEntry k v rest

/-- One step of the latest-run scan (main.go lines 237-242): the first run
seen for an id becomes the candidate; a later run replaces it only when its
run number is strictly greater. -/
def latestRunsStep (m : List (Int × WorkflowRun)) (run : WorkflowRun) : List (Int × WorkflowRun) :=
  match findEntry run.workflowID m with
  | none => setEntry run.workflowID run m
  | some existing =>
    if run.runNumber > existing.runNumber then setEntry run.workflowID run m else m

/-- The latest-run reduction: a linear scan of the listed runs. -/
def latestRuns (runs : List WorkflowRun) : List (Int × WorkflowRun) :=
  runs.foldl latestRunsStep []

/-- The fixed conclusion set (main.go lines 256-257). -/
def conclusions : List String :=
  ["action_required", "cancelled", "failure", "neutral",
   "skipped", "stale", "startup_failure", "success", "timed_out"]

/-- The samples one workflow contributes (main.go lines 249-270): nothing
when the reduction retained no run for its id, otherwise one run-number
sample and nine one-hot conclusion samples. -/
def workflowContribution (fullName : String) (runs : List WorkflowRun) (w : Workflow) :
    List Sample :=
  match findEntry w.id (latestRuns runs) with
  | none => []
  | some latest =>
    { metric := "github_workflow_run_number",
      labels := [("github_repo", fullName), ("workflow_name", w.name)],
      value := latest.runNumber } ::
    conclusions.map (fun c =>
      { metric := "github_workflow_run_conclusion",
        labels := [("github_repo", fullName), ("workflow_name", w.name),
                   ("github_workflow_run_conclusion", c)],
        value := if c = latest.conclusion then 1 else 0 })

/-- All samples the Workflow Collector writes for one repository. -/
def updateWorkflowRunMetricsSamples (fullName : String) (runs : List WorkflowRun)
    (workflows : List Workflow) : List Sample :=
  workflows.flatMap (workflowContribution fullName runs)

/-- The run-listing request `updateWorkflowRunMetrics` issues
(main.go lines 225-231): default branch, completed runs, page size 100,
page left at the Go zero value 0. -/
structure ListRunsRequest where
  branch : String
  status : String
  perPage : Nat
  page : Nat
deriving DecidableEq, Repr

/-- A workflow-run page source: response page plus `NextPage`. -/
def RunSource : Type := ListRunsRequest → List WorkflowRun × Nat

/-- The request built for a repository. -/
def listRunsRequest (repo : Repo) : ListRunsRequest :=
  { branch := repo.defaultBranch, status := "completed", perPage := 100, page := 0 }

/-- The runs `updateWorkflowRunMetrics` feeds into the reduction: the single
call's response page.  The call is made once; the response's `NextPage` is
never consulted. -/
def listedWorkflowRuns (source : RunSource) (repo : Repo) : List WorkflowRun :=
  (source (listRunsRequest repo)).1

/-! ## Issue/PR Collector: `updateIssueMetrics` (main.go lines 314-357) -/

/-- The four samples written for one response node. -/
def issueNodeSamples (n : IssueRepoNode) : List Sample :=
  [{ metric := "github_issue_count",
     labels := [("github_repo", n.nameWithOwner), ("type", "issue"), ("state", "open")],
     value := n.openIssues },
   { metric := "github_issue_count",
     labels := [("github_repo", n.nameWithOwner), ("type", "issue"), ("state", "closed")],
     value := n.closedIssues },
   { metric := "github_issue_count",
     labels := [("github_repo", n.nameWithOwner), ("type", "pull"), ("state", "open")],
     value := n.openPulls },
   { metric := "github_issue_count",
     labels := [("github_repo", n.nameWithOwner), ("type", "pull"), ("state", "closed")],
     value := n.closedPulls }]

/-- All samples the Issue/PR Collector writes, given the decoded batched
response nodes. -/
def updateIssueMetricsSamples (nodes : List IssueRepoNode) : List Sample :=
  nodes.flatMap issueNodeSamples

/-! ## Notification Collector: `updateNotificationsMetrics` (main.go lines 132-147) -/

/-- The unread count: notifications whose `Unread` flag is set. -/
def unreadCount (notifications : List Bool) : Nat :=
  (notifications.filter id).length

/-- The single sample the Notification Collector writes. -/
def notificationSamples (notifications : List Bool) : List Sample :=
  [{ metric := "github_notification_count",
     labels := [("unread", "true")],
     value := (unreadCount notifications : Int) }]

/-! ## Repo counting: `updateRepoCountMetrics` (main.go lines 149-188) -/

/-- The (owner, visibility, archived) label triple of a repository. -/
def repoKey (r : Repo) : String × String × String :=
  (r.owner, if r.priv then "private" else "public", if r.archived then "true" else "false")

/-- The samples `updateRepoCountMetrics` writes: one per (owner, visibility,
archived) combination present among the repositories, valued at the number
of repositories in that group.  The input is the full enumerated list,
archived repositories included. -/
def updateRepoCountMetricsSamples (repos : List Repo) : List Sample :=
  ((repos.map repoKey).dedup).map (fun k =>
    { metric := "github_repo_count",
      labels := [("owner", k.1), ("visibility", k.2.1), ("archived", k.2.2)],
      value := ((repos.filter (fun r => repoKey r = k)).length : Int) })

/-- The repositories the orchestrator fans a Workflow Collector task out
for: archived repositories are skipped (main.go lines 115-118). -/
def workflowRepos (repos : List Repo) : List Repo :=
  repos.filter (fun r => !r.archived)

/-! ## Pushgateway retry loop (main.go lines 531-542) -/

/-- The declared default of `--pushgateway-retries` (main.go line 415). -/
def defaultPushgatewayRetries : Int := 1

/-- The loop body, on the remaining iteration budget.  `outcomes i` is
whether the push attempt of iteration `i` succeeds.  Returns (number of
push attempts made, whether `err` is nil after the loop): `err` starts nil,
each attempt overwrites it, and the loop breaks on the first success. -/
def pushLoopAux (outcomes : Nat → Bool) : Nat → Nat → Nat × Bool
  | _, 0 => (0, true)
  | i, n + 1 =>
    if outcomes i then (1, true)
    else if n = 0 then (1, false)
    else
      match pushLoopAux outcomes (i + 1) n with
      | (a, ok) => (a + 1, ok)

/-- The push retry loop `for i := 1; i < retries; i++`: the iteration
budget is `retries - 1` (clamped at zero), counting `i` up from 1.
Returns (attempts made, whether the program exits without a push error). -/
def pushRun (retries : Int) (outcomes : Nat → Bool) : Nat × Bool :=
  pushLoopAux outcomes 1 (retries - 1).toNat

/-! ## Update Orchestrator: `updateGitHubMetrics` (main.go lines 83-130)

The two `errgroup.WithContext` groups become an explicit interleaving
machine.  A task is a sequence of network calls followed by an atomic
"write samples and return nil" step.  A call made while the task's context
is cancelled fails with `Err.canceled`; an uncancelled call fails or
succeeds as scripted in the configuration.  A group records the first error
a task returns (Go: `errOnce`) and that first error cancels the group's
derived context; the inner group's context is derived from the outer one,
so it is cancelled when either group has recorded an error. -/

/-- One refresh cycle's scripted environment: the outcome of every network
call and the data returned by the successful ones. -/
structure Config where
  notifErr : Option Err
  notifications : List Bool
  userErr : Option Err
  gqlErr : Option Err
  issueNodes : List IssueRepoNode
  fetchErrs : List (Option Err)
  repos : List Repo
  wfRunsErr : Repo → Option Err
  wfListErr : Repo → Option Err
  runsOf : Repo → List WorkflowRun
  workflowsOf : Repo → List Workflow

/-- A task's static description: its error-wrap label, the scripted
outcomes of its network calls in order, and the samples it writes when all
calls succeed. -/
structure TaskSpec where
  label : String
  calls : List (Option Err)
  samples : List Sample

/-- The notification task: one call (`ListNotifications`), one sample. -/
def notifSpec (cfg : Config) : TaskSpec :=
  { label := "notifications metrics",
    calls := [cfg.notifErr],
    samples := notificationSamples cfg.notifications }

/-- The issue task: two calls (`Users.Get`, then the GraphQL request,
whose slot also covers a decode failure), then the issue samples. -/
def issueSpec (cfg : Config) : TaskSpec :=
  { label := "issue metrics",
    calls := [cfg.userErr, cfg.gqlErr],
    samples := updateIssueMetricsSamples cfg.issueNodes }

/-- The tasks of the inner group, spawned after `fetchUserRepos` returns:
first `updateRepoCountMetrics` (no network call, cannot fail, counts the
full list archived included), then one Workflow Collector task per
non-archived repository (two calls, wrapped with the repository label). -/
def innerSpecs (cfg : Config) : List TaskSpec :=
  { label := "repo count metrics", calls := [],
    samples := updateRepoCountMetricsSamples cfg.repos } ::
  (workflowRepos cfg.repos).map (fun r =>
    { label := "workflow metrics for " ++ r.fullName,
      calls := [cfg.wfRunsErr r, cfg.wfListErr r],
      samples := updateWorkflowRunMetricsSamples r.fullName (cfg.runsOf r) (cfg.workflowsOf r) })

/-- A task's dynamic status: calls still pending, or returned with a
result (`none` = nil error). -/
inductive TStatus where
  | running (remaining : List (Option Err))
  | done (result : Option Err)
deriving DecidableEq, Repr

/-- Whether a task has returned. -/
def TStatus.isDone : TStatus → Bool
  | .done _ => true
  | .running _ => false

/-- The repo-pipeline goroutine's status: fetching repository pages, inner
group running, or returned.  `done` also records the inner tasks' final
statuses (an empty list when the fetch itself failed). -/
inductive PipeStatus where
  | fetching (remaining : List (Option Err))
  | inner (sts : List TStatus)
  | done (result : Option Err) (finalSts : List TStatus)
deriving DecidableEq, Repr

/-- Whether the pipeline goroutine has returned. -/
def PipeStatus.isDone : PipeStatus → Bool
  | .done _ _ => true
  | _ => false

/-- Machine state.  `outerErr` / `innerErr` are the two groups' `errOnce`
slots; a group's derived context is cancelled exactly when its slot (or,
for the inner group, the outer slot) is occupied. -/
structure MState where
  notifSt : TStatus
  issueSt : TStatus
  pipeSt : PipeStatus
  outerErr : Option Err
  innerErr : Option Err
  sink : List Sample
deriving DecidableEq, Repr

/-- The outer group's derived context is cancelled. -/
def outerCancelled (st : MState) : Bool := st.outerErr.isSome

/-- The inner group's derived context is cancelled (it derives from the
outer context). -/
def innerCancelled (st : MState) : Bool := st.outerErr.isSome || st.innerErr.isSome

/-- Go's `errOnce`: record an error only if the slot is empty. -/
def errOnce (slot : Option Err) (e : Err) : Option Err :=
  match slot with
  | none => some e
  | some x => some x

/-- One atomic step of a plain task: (new status, samples written, error
returned now if it just failed).  A pending call fails with the wrapped
cancellation error when the context is cancelled, else fails or proceeds
as scripted; after the last call the task writes its samples and returns
nil (sink writes are plain memory writes, not gated on the context). -/
def stepTask (cancelled : Bool) (label : String) (samples : List Sample) :
    TStatus → TStatus × List Sample × Option Err
  | .running [] => (.done none, samples, none)
  | .running (c :: rest) =>
    if cancelled then
      (.done (some (.wrapped label .canceled)), [], some (.wrapped label .canceled))
    else
      match c with
      | some e => (.done (some (.wrapped label e)), [], some (.wrapped label e))
      | none => (.running rest, [], none)
  | .done r => (.done r, [], none)

/-- Record an error (if any) in the outer group's slot. -/
def fireOuter (st : MState) : Option Err → MState
  | none => st
  | some e => { st with outerErr := errOnce st.outerErr e }

/-- Scheduler choices: advance one task by one atomic step.  A choice
naming a finished (or not yet spawned) task is a no-op. -/
inductive Choice where
  | notif
  | issue
  | fetchStep
  | innerStep (i : Nat)
deriving DecidableEq, Repr

/-- A step of the notification goroutine. -/
def stepNotif (cfg : Config) (st : MState) : MState :=
  match stepTask (outerCancelled st) (notifSpec cfg).label (notifSpec cfg).samples st.notifSt with
  | (ts, out, e) => fireOuter { st with notifSt := ts, sink := st.sink ++ out } e

/-- A step of the issue goroutine. -/
def stepIssue (cfg : Config) (st : MState) : MState :=
  match stepTask (outerCancelled st) (issueSpec cfg).label (issueSpec cfg).samples st.issueSt with
  | (ts, out, e) => fireOuter { st with issueSt := ts, sink := st.sink ++ out } e

/-- A step of the repo pipeline's fetch phase: one `fetchUserRepos` page
call, or — once the fetch is finished — spawning the inner group. -/
def stepFetch (cfg : Config) (st : MState) : MState :=
  match st.pipeSt with
  | .fetching [] =>
    { st with pipeSt := .inner ((innerSpecs cfg).map (fun s => .running s.calls)) }
  | .fetching (c :: rest) =>
    if outerCancelled st then
      fireOuter { st with pipeSt := .done (some (.wrapped "fetching repos" .canceled)) [] }
        (some (.wrapped "fetching repos" .canceled))
    else
      match c with
      | some e =>
        fireOuter { st with pipeSt := .done (some (.wrapped "fetching repos" e)) [] }
          (some (.wrapped "fetching repos" e))
      | none => { st with pipeSt := .fetching rest }
  | _ => st

/-- A step of inner task `i`.  When the step leaves every inner task
returned, the pipeline goroutine itself returns `repoGroup.Wait()`: the
inner group's recorded first error, reported to the outer group. -/
def stepInner (cfg : Config) (i : Nat) (st : MState) : MState :=
  match st.pipeSt with
  | .inner sts =>
    match sts[i]?, (innerSpecs cfg)[i]? with
    | some ts, some spec =>
      match stepTask (innerCancelled st) spec.label spec.samples ts with
      | (ts', out, e) =>
        let sts' := sts.set i ts'
        let innerErr' :=
          match e with
          | none => st.innerErr
          | some err => errOnce st.innerErr err
        let st' := { st with pipeSt := .inner sts', innerErr := innerErr',
                             sink := st.sink ++ out }
        if sts'.all TStatus.isDone then
          fireOuter { st' with pipeSt := .done innerErr' sts' } innerErr'
        else st'
    | _, _ => st
  | _ => st

/-- One machine step. -/
def step (cfg : Config) (st : MState) : Choice → MState
  | .notif => stepNotif cfg st
  | .issue => stepIssue cfg st
  | .fetchStep => stepFetch cfg st
  | .innerStep i => stepInner cfg i st

/-- The initial state: all three outer tasks launched, no error, empty
sink snapshot for this cycle. -/
def initState (cfg : Config) : MState :=
  { notifSt := .running (notifSpec cfg).calls,
    issueSt := .running (issueSpec cfg).calls,
    pipeSt := .fetching cfg.fetchErrs,
    outerErr := none,
    innerErr := none,
    sink := [] }

/-- Run a schedule. -/
def run (cfg : Config) (sched : List Choice) : MState :=
  sched.foldl (step cfg) (initState cfg)

/-- All goroutines of the cycle have returned: only then does the nested
`Wait` / `Wait` chain in `updateGitHubMetrics` return. -/
def allDone (st : MState) : Bool :=
  st.notifSt.isDone && st.issueSt.isDone && st.pipeSt.isDone

/-- The result of `g.Wait()` once every task has returned: the outer
group's recorded first error (in task-return order), nil if none. -/
def waitResult (st : MState) : Option Err := st.outerErr

/-- A task status carries a failure. -/
def TStatus.failed : TStatus → Bool
  | .done (some _) => true
  | _ => false

/-- The result recorded for the notification task, if it has returned. -/
def notifRes (st : MState) : Option (Option Err) :=
  match st.notifSt with
  | .done r => some r
  | _ => none

/-- The result recorded for the issue task, if it has returned. -/
def issueRes (st : MState) : Option (Option Err) :=
  match st.issueSt with
  | .done r => some r
  | _ => none

/-- The result of the repo-pipeline goroutine, if it has returned. -/
def pipeRes (st : MState) : Option (Option Err) :=
  match st.pipeSt with
  | .done r _ => some r
  | _ => none

/-- Some launched task failed (the pipeline's result subsumes the fetch
phase and the inner group's first error). -/
def someTaskFailed (st : MState) : Bool :=
  st.notifSt.failed || st.issueSt.failed ||
    (match st.pipeSt with | .done (some _) _ => true | _ => false)

/-- The machine invariant.  `notifDone` / `issueDone` / `innerDone`: a task
that returned nil has its samples in the sink.  `outerSrc`: the outer
group's recorded error is the result of one of its three tasks.
`notifFired` / `issueFired` / `pipeFired`: a failed outer task has fired
the outer `errOnce`.  `pipeDoneAll`: the pipeline returns only once every
spawned inner task has.  `lenInner` / `lenDone`: the inner status list
tracks the spawned specs (a `done` with a non-nil result may instead stem
from a fetch failure, before any spawn). -/
structure MInv (cfg : Config) (st : MState) : Prop where
  notifDone : st.notifSt = .done none → ∀ x ∈ (notifSpec cfg).samples, x ∈ st.sink
  issueDone : st.issueSt = .done none → ∀ x ∈ (issueSpec cfg).samples, x ∈ st.sink
  innerDone : ∀ (sts : List TStatus),
    (st.pipeSt = .inner sts ∨ ∃ r, st.pipeSt = .done r sts) →
    ∀ (i : Nat) (spec : TaskSpec), (innerSpecs cfg)[i]? = some spec →
      sts[i]? = some (TStatus.done none) → ∀ x ∈ spec.samples, x ∈ st.sink
  outerSrc : ∀ e, st.outerErr = some e →
    st.notifSt = .done (some e) ∨ st.issueSt = .done (some e) ∨
      ∃ fs, st.pipeSt = .done (some e) fs
  notifFired : ∀ e, st.notifSt = .done (some e) → st.outerErr.isSome = true
  issueFired : ∀ e, st.issueSt = .done (some e) → st.outerErr.isSome = true
  pipeFired : ∀ e fs, st.pipeSt = .done (some e) fs → st.outerErr.isSome = true
  pipeDoneAll : ∀ r fs, st.pipeSt = .done r fs → fs.all TStatus.isDone = true
  lenInner : ∀ sts, st.pipeSt = .inner sts → sts.length = (innerSpecs cfg).length
  lenDone : ∀ r fs, st.pipeSt = .done r fs →
    fs.length = (innerSpecs cfg).length ∨ r ≠ none

/-! ## Specification scaffolding used by the proofs -/

/-- The single-key view of one scan step: the first run seen becomes the
candidate, a later run replaces it only on strictly greater run number. -/
def scanMaxStep (acc : Option WorkflowRun) (run : WorkflowRun) : Option WorkflowRun :=
  match acc with
  | none => some run
  | some best => if run.runNumber > best.runNumber then some run else acc

/-- The latest-run scan restricted to a single workflow id's runs. -/
def scanMax (l : List WorkflowRun) : Option WorkflowRun :=
  l.foldl scanMaxStep none

/-- The conclusion samples among one workflow's contribution. -/
def conclusionSamples (fullName : String) (runs : List WorkflowRun) (w : Workflow) :
    List Sample :=
  (workflowContribution fullName runs w).filter
    (fun s => s.metric == "github_workflow_run_conclusion")

/-- A configuration in which every scripted network call succeeds. -/
def cleanConfig (cfg : Config) : Prop :=
  cfg.notifErr = none ∧ cfg.userErr = none ∧ cfg.gqlErr = none ∧
    (∀ c ∈ cfg.fetchErrs, c = none) ∧
    (∀ spec ∈ innerSpecs cfg, ∀ c ∈ spec.calls, c = none)

/-- A task status that has seen no failure: pending calls all scripted to
succeed, or returned nil. -/
def TStatus.cleanSt : TStatus → Prop
  | .running rem => ∀ c ∈ rem, c = none
  | .done r => r = none

/-- The pipeline analogue of `TStatus.cleanSt`. -/
def PipeStatus.cleanSt : PipeStatus → Prop
  | .fetching rem => ∀ c ∈ rem, c = none
  | .inner sts => ∀ t ∈ sts, t.cleanSt
  | .done r fs => r = none ∧ ∀ t ∈ fs, t.cleanSt

/-- A state with no recorded error anywhere and no failed task. -/
def CleanInv (st : MState) : Prop :=
  st.outerErr = none ∧ st.innerErr = none ∧
    st.notifSt.cleanSt ∧ st.issueSt.cleanSt ∧ st.pipeSt.cleanSt

/-! ## Concrete instances for counterexamples and witnesses -/

/-- Scenario repository "a" (not archived). -/
def repoA : Repo := ⟨"u", "a", "u/a", "main", false, false⟩

/-- Scenario repository "b" (archived). -/
def repoB : Repo := ⟨"u", "b", "u/b", "main", false, true⟩

/-- A single-page repo source for the account with repositories a and b,
returning the page with b (the archived one) first. -/
def cexRepoSource : RepoSource := fun opts =>
  if opts.page = 0 then some ([some repoB, some repoA], 0) else none

/-- A two-page repo source: b (archived) on the first page, a on the
second, for the C2 witness. -/
def witRepoSource : RepoSource := fun opts =>
  if opts.page = 0 then some ([some repoB], 1)
  else if opts.page = 1 then some ([some repoA], 0)
  else none

/-- The repository used by the Workflow Collector counterexamples. -/
def cexRepo : Repo := ⟨"josh", "r", "josh/r", "main", false, false⟩

/-- The first page of completed runs for `cexRepo`: 100 runs of workflow 1
with run numbers 1..100. -/
def cexRunsPageOne : List WorkflowRun :=
  (List.range 100).map (fun i => ⟨1, (i : Int) + 1, "success"⟩)

/-- A run source with a full first page and the latest run (number 101) on
the second page. -/
def cexRunSource : RunSource := fun req =>
  if req.page = 0 then (cexRunsPageOne, 2) else ([⟨1, 101, "failure"⟩], 0)

/-- The {3,7,5} run set of claim C4's scenario. -/
def runsC4 : List WorkflowRun :=
  [⟨1, 3, "success"⟩, ⟨1, 7, "success"⟩, ⟨1, 5, "failure"⟩]

/-- The workflow run used by the C5 witness. -/
def runC5 : WorkflowRun := ⟨1, 4, "success"⟩

/-- The workflow used by the C5 witness. -/
def wfC5 : Workflow := ⟨1, "CI"⟩

/-- The workflow (with no runs) used by the C6 witness. -/
def wfC6 : Workflow := ⟨2, "Deploy"⟩

/-- A second run source agreeing with `cexRunSource` on the first page but
empty afterwards, for the C7 witness. -/
def witRunSource : RunSource := fun req =>
  if req.page = 0 then (cexRunsPageOne, 2) else ([], 0)

/-- The batched-response node of claim C8's scenario. -/
def nodeC8 : IssueRepoNode := ⟨"x", 3, 1, 0, 2⟩

/-- Configuration for the C1 counterexample: the notification call fails,
everything else is scripted to succeed; the issue query would produce the
four samples of repo "josh/x". -/
def cexConfigA : Config :=
  { notifErr := some (.api 1), notifications := [],
    userErr := none, gqlErr := none,
    issueNodes := [⟨"josh/x", 3, 1, 0, 2⟩],
    fetchErrs := [none], repos := [],
    wfRunsErr := fun _ => none, wfListErr := fun _ => none,
    runsOf := fun _ => [], workflowsOf := fun _ => [] }

/-- C1 counterexample schedule: the notification task fails first, then the
issue task and the repo fetch each issue a call on the now-cancelled outer
context. -/
def cexSchedA : List Choice := [.notif, .issue, .fetchStep]

/-- Configuration for the C3 counterexample: the workflow-run listing of
repository `cexRepo` fails, and the notification call also fails. -/
def cexConfigB : Config :=
  { notifErr := some (.api 1), notifications := [],
    userErr := none, gqlErr := none, issueNodes := [],
    fetchErrs := [none], repos := [cexRepo],
    wfRunsErr := fun _ => some (.api 2), wfListErr := fun _ => none,
    runsOf := fun _ => [], workflowsOf := fun _ => [] }

/-- The wrapped error of the per-repository workflow task in `cexConfigB`. -/
def wfErrB : Err := .wrapped "workflow metrics for josh/r" (.api 2)

/-- The wrapped error of the notification task in `cexConfigB`. -/
def notifErrB : Err := .wrapped "notifications metrics" (.api 1)

/-- C3 counterexample schedule prefix: the fetch succeeds, the inner group
spawns, and the workflow task fails — the temporally first error. -/
def cexSchedBpre : List Choice := [.fetchStep, .fetchStep, .innerStep 1]

/-- C3 counterexample schedule suffix: the notification task fails only
now, yet its error is the one the outer group records, because the
pipeline goroutine is still waiting on its inner group. -/
def cexSchedBfull : List Choice :=
  cexSchedBpre ++ [.notif, .innerStep 0, .issue, .issue]

/-- A fully successful configuration used by the C1 witness. -/
def witConfigA : Config :=
  { notifErr := none, notifications := [true, false, true],
    userErr := none, gqlErr := none,
    issueNodes := [⟨"josh/x", 3, 1, 0, 2⟩],
    fetchErrs := [none], repos := [repoA, repoB],
    wfRunsErr := fun _ => none, wfListErr := fun _ => none,
    runsOf := fun _ => [⟨1, 5, "failure"⟩, ⟨1, 2, "success"⟩],
    workflowsOf := fun _ => [⟨1, "CI"⟩] }

/-- A schedule driving `witConfigA` to completion. -/
def witSchedA : List Choice :=
  [.notif, .notif, .issue, .issue, .issue, .fetchStep, .fetchStep,
   .innerStep 0, .innerStep 1, .innerStep 1, .innerStep 1]

/-- A configuration whose only failure is the notification call, used by
the C3 witness. -/
def witConfigB : Config :=
  { notifErr := some (.api 7), notifications := [],
    userErr := none, gqlErr := none, issueNodes := [⟨"josh/x", 3, 1, 0, 2⟩],
    fetchErrs := [none], repos := [],
    wfRunsErr := fun _ => none, wfListErr := fun _ => none,
    runsOf := fun _ => [], workflowsOf := fun _ => [] }

/-- A schedule driving `witConfigB` to completion: the issue task finishes
its calls before the notification failure, so its samples are written. -/
def witSchedB : List Choice :=
  [.issue, .issue, .issue, .notif, .fetchStep, .fetchStep, .innerStep 0]

/-! ## Generic list lemmas -/

theorem nodup_filter_single {α : Type} [BEq α] [LawfulBEq α] (l : List α) (a : α)
    (hnd : l.Nodup) (ha : a ∈ l) : l.filter (fun x => x == a) = [a] := by
  induction l with
  | nil => cases ha
  | cons b t ih =>
    rw [List.filter_cons]
    rcases List.nodup_cons.1 hnd with ⟨hb, hnd'⟩
    by_cases hba : b = a
    · subst hba
      have hbb : (b == b) = true := beq_self_eq_true b
      rw [if_pos hbb]
      have ht : t.filter (fun x => x == b) = [] := by
        refine List.filter_eq_nil_iff.2 (fun x hx hxb => ?_)
        exact hb (beq_iff_eq.1 hxb ▸ hx)
      simp [ht]
    · have hmem : a ∈ t := by
        rcases List.mem_cons.1 ha with h | h
        · exact absurd h.symm hba
        · exact h
      have : (b == a) = false := beq_eq_false_iff_ne.2 hba
      simp [this, ih hnd' hmem]

theorem length_filter_neg {α : Type} (p : α → Bool) (l : List α) :
    (l.filter p).length + (l.filter (fun a => !(p a))).length = l.length := by
  induction l with
  | nil => rfl
  | cons b t ih =>
    rw [List.filter_cons, List.filter_cons]
    cases hb : p b <;> simp only [hb, Bool.not_true, Bool.not_false, if_pos, if_neg] <;>
      simp [List.length_cons] <;> omega

theorem filterOfMap {α β : Type} (f : α → β) (p : β → Bool) (l : List α) :
    (l.map f).filter p = (l.filter (fun a => p (f a))).map f := by
  induction l with
  | nil => rfl
  | cons b t ih =>
    rw [List.map_cons, List.filter_cons, List.filter_cons]
    cases hb : p (f b) <;> simp [hb, ih]

theorem filterOfFlatMap {α β : Type} (f : α → List β) (p : β → Bool) (l : List α) :
    (l.flatMap f).filter p = l.flatMap (fun a => (f a).filter p) := by
  induction l with
  | nil => rfl
  | cons b t ih => simp [List.flatMap_cons, List.filter_append, ih]

theorem flatMapOfNil {α β : Type} (f : α → List β) (l : List α)
    (h : ∀ a ∈ l, f a = []) : l.flatMap f = [] := by
  induction l with
  | nil => rfl
  | cons b t ih =>
    rw [List.flatMap_cons, h b (List.mem_cons_self b t), List.nil_append]
    exact ih (fun a ha => h a (List.mem_cons_of_mem b ha))

theorem flatMapIteFilter {α β : Type} (p : α → Bool) (f : α → List β) (l : List α) :
    (l.flatMap (fun a => if p a then f a else [])) = (l.filter p).flatMap f := by
  induction l with
  | nil => rfl
  | cons b t ih =>
    rw [List.flatMap_cons, List.filter_cons]
    cases hb : p b <;> simp [hb, ih]

/-! ## C10: the pushgateway retry loop -/

theorem pushLoopAux_pos (outcomes : Nat → Bool) (i n : Nat) (h : 0 < n) :
    0 < (pushLoopAux outcomes i n).1 := by
  cases n with
  | zero => cases h
  | succ m =>
    rw [pushLoopAux]
    by_cases ho : outcomes i = true
    · simp [ho]
    · rw [if_neg ho]
      by_cases hm : m = 0
      · simp [hm]
      · rw [if_neg hm]
        rcases hres : pushLoopAux outcomes (i + 1) m with ⟨a, ok⟩
        simp [hres]

/-- C10: in generate mode with the default `--pushgateway-retries` value 1,
the retry loop `for i := 1; i < retries; i++` performs zero iterations: no
push is attempted and `err` stays nil, so the program does not report a
push error; a push is attempted exactly when retries is at least 2. -/
theorem C10_push_retry :
    (∀ outcomes : Nat → Bool, pushRun defaultPushgatewayRetries outcomes = (0, true)) ∧
    (∀ (retries : Int) (outcomes : Nat → Bool),
      0 < (pushRun retries outcomes).1 ↔ 2 ≤ retries) := by
  constructor
  · intro outcomes
    rfl
  · intro retries outcomes
    constructor
    · intro h
      by_contra hlt
      have : (retries - 1).toNat = 0 := by omega
      rw [pushRun, this] at h
      simp [pushLoopAux] at h
    · intro h
      have : 0 < (retries - 1).toNat := by omega
      exact pushLoopAux_pos outcomes 1 _ this

/-- C10 witness: with retries 1 nothing is attempted; with retries 2 and a
failing pushgateway exactly one push is attempted. -/
theorem C10_push_retry_witness :
    pushRun defaultPushgatewayRetries (fun _ => false) = (0, true) ∧
    0 < (pushRun 2 (fun _ => false)).1 := by
  refine ⟨C10_push_retry.1 (fun _ => false), ?_⟩
  exact (C10_push_retry.2 2 (fun _ => false)).2 (by norm_num)

/-! ## C2: the Repo Enumerator -/

/-- C2 (amended): `fetchUserRepos` requests server-side ordering (sort by
full name, ascending) but itself neither sorts nor filters: on success the
output is exactly the concatenation, page by page along the followed
`NextPage` chain, of each page's non-nil repositories in the order the
source returned them — so every repository of every followed page, archived
or not, is in the output. -/
theorem C2_fetchUserRepos_amended (source : RepoSource) :
    ∀ (fuel : Nat) (opts : RepoListOpts) (l : List Repo),
      fetchUserRepos source fuel opts = some l →
      (userRepoListOpts.sort = "full_name" ∧ userRepoListOpts.direction = "asc" ∧
        userRepoListOpts.typ = "owner" ∧ userRepoListOpts.perPage = 100) ∧
      ∃ pages, followedPages source fuel opts = some pages ∧
        l = pages.flatMap (fun p => p.filterMap id) ∧
        ∀ p ∈ pages, ∀ r : Repo, some r ∈ p → r ∈ l := by
  intro fuel
  induction fuel with
  | zero =>
    intro opts l h
    exact absurd h (fun hx => Option.noConfusion hx)
  | succ n ih =>
    intro opts l h
    refine ⟨⟨rfl, rfl, rfl, rfl⟩, ?_⟩
    rw [fetchUserRepos] at h
    cases hsrc : source opts with
    | none =>
      rw [hsrc] at h
      exact Option.noConfusion h
    | some pr =>
      obtain ⟨items, next⟩ := pr
      rw [hsrc] at h
      dsimp only at h
      by_cases hnext : next = 0
      · rw [if_pos hnext] at h
        have hl : l = items.filterMap id := (Option.some.inj h).symm
        refine ⟨[items], ?_, ?_, ?_⟩
        · rw [followedPages, hsrc]
          dsimp only
          rw [if_pos hnext]
        · rw [hl]
          simp [List.flatMap_cons]
        · intro p hp r hr
          rw [List.mem_singleton] at hp
          subst hp
          rw [hl]
          exact List.mem_filterMap.2 ⟨some r, hr, rfl⟩
      · rw [if_neg hnext] at h
        cases hrec : fetchUserRepos source n { opts with page := next } with
        | none =>
          rw [hrec] at h
          exact Option.noConfusion h
        | some rest =>
          rw [hrec] at h
          have hl : l = items.filterMap id ++ rest := (Option.some.inj h).symm
          obtain ⟨-, pages, hpages, hrest, hmem⟩ := ih { opts with page := next } rest hrec
          refine ⟨items :: pages, ?_, ?_, ?_⟩
          · rw [followedPages, hsrc]
            dsimp only
            rw [if_neg hnext, hpages]
            rfl
          · rw [hl, hrest, List.flatMap_cons]
          · intro p hp r hr
            rcases List.mem_cons.1 hp with rfl | hp'
            · rw [hl]
              exact List.mem_append_left _ (List.mem_filterMap.2 ⟨some r, hr, rfl⟩)
            · rw [hl]
              exact List.mem_append_right _ (hmem p hp' r hr)

/-- C2 witness: on a two-page account — b (archived) on the first page, a
on the second — the theorem yields that the output is the pages'
concatenation [b, a] and that the repository on the second followed page is
in the output. -/
theorem C2_fetchUserRepos_amended_witness :
    fetchUserRepos witRepoSource 5 userRepoListOpts = some [repoB, repoA] ∧
    repoA ∈ [repoB, repoA] ∧ repoB ∈ [repoB, repoA] := by
  have hrun : fetchUserRepos witRepoSource 5 userRepoListOpts = some [repoB, repoA] := by
    decide
  obtain ⟨-, pages, hpages, -, hmem⟩ :=
    C2_fetchUserRepos_amended witRepoSource 5 userRepoListOpts [repoB, repoA] hrun
  have hcomp : followedPages witRepoSource 5 userRepoListOpts =
      some [[some repoB], [some repoA]] := by decide
  rw [hcomp] at hpages
  have hpg : pages = [[some repoB], [some repoA]] := (Option.some.inj hpages).symm
  subst hpg
  refine ⟨hrun, hmem [some repoA] (by decide) repoA (by decide),
    hmem [some repoB] (by decide) repoB (by decide)⟩

/-! ## C4: the latest-run reduction -/

theorem findEntry_setEntry_self (k : Int) (v : WorkflowRun) (m : List (Int × WorkflowRun)) :
    findEntry k (setEntry k v m) = some v := by
  induction m with
  | nil => simp [setEntry, findEntry]
  | cons p rest ih =>
    rw [setEntry]
    by_cases hk : p.1 = k
    · rw [if_pos hk, findEntry, if_pos rfl]
    · rw [if_neg hk, findEntry, if_neg hk, ih]

theorem findEntry_setEntry_ne (k k' : Int) (v : WorkflowRun) (m : List (Int × WorkflowRun))
    (h : k' ≠ k) : findEntry k (setEntry k' v m) = findEntry k m := by
  induction m with
  | nil => simp [setEntry, findEntry, h]
  | cons p rest ih =>
    rw [setEntry]
    by_cases hk : p.1 = k'
    · rw [if_pos hk, findEntry, if_neg h, findEntry, hk, if_neg h]
    · rw [if_neg hk, findEntry, findEntry, ih]

theorem findEntry_latestRunsStep (m : List (Int × WorkflowRun)) (run : WorkflowRun) (W : Int) :
    findEntry W (latestRunsStep m run) =
      if run.workflowID = W then scanMaxStep (findEntry W m) run else findEntry W m := by
  rw [latestRunsStep]
  by_cases hW : run.workflowID = W
  · rw [if_pos hW]
    subst hW
    cases hfe : findEntry run.workflowID m with
    | none => rw [findEntry_setEntry_self, scanMaxStep]
    | some existing =>
      dsimp only
      rw [scanMaxStep]
      by_cases hgt : run.runNumber > existing.runNumber
      · rw [if_pos hgt, if_pos hgt, findEntry_setEntry_self]
      · rw [if_neg hgt, if_neg hgt, hfe]
  · rw [if_neg hW]
    cases hfe : findEntry run.workflowID m with
    | none => rw [findEntry_setEntry_ne _ _ _ _ hW]
    | some existing =>
      dsimp only
      by_cases hgt : run.runNumber > existing.runNumber
      · rw [if_pos hgt, findEntry_setEntry_ne _ _ _ _ hW]
      · rw [if_neg hgt]

theorem latestRuns_foldl_findEntry (runs : List WorkflowRun) (W : Int)
    (m : List (Int × WorkflowRun)) :
    findEntry W (runs.foldl latestRunsStep m) =
      (runs.filter (fun x => x.workflowID == W)).foldl scanMaxStep (findEntry W m) := by
  induction runs generalizing m with
  | nil => rfl
  | cons r rest ih =>
    rw [List.foldl_cons, ih, List.filter_cons]
    by_cases hW : r.workflowID = W
    · have : (r.workflowID == W) = true := by simp [hW]
      rw [if_pos this, List.foldl_cons, findEntry_latestRunsStep, if_pos hW]
    · have : (r.workflowID == W) = false := by simp [hW]
      rw [if_neg (by simp [this]), findEntry_latestRunsStep, if_neg hW]

theorem latestRuns_findEntry (runs : List WorkflowRun) (W : Int) :
    findEntry W (latestRuns runs) =
      scanMax (runs.filter (fun x => x.workflowID == W)) := by
  rw [latestRuns, latestRuns_foldl_findEntry, scanMax, findEntry]

theorem scanMaxFrom_isSome (t : List WorkflowRun) (b : WorkflowRun) :
    ∃ r, t.foldl scanMaxStep (some b) = some r := by
  induction t generalizing b with
  | nil => exact ⟨b, rfl⟩
  | cons a t' ih =>
    rw [List.foldl_cons, scanMaxStep]
    by_cases hgt : a.runNumber > b.runNumber
    · rw [if_pos hgt]; exact ih a
    · rw [if_neg hgt]; exact ih b

theorem scanMaxFrom_spec (t : List WorkflowRun) (b r : WorkflowRun)
    (h : t.foldl scanMaxStep (some b) = some r) :
    (r = b ∧ ∀ x ∈ t, x.runNumber ≤ b.runNumber) ∨
    (b.runNumber < r.runNumber ∧ ∃ t1 t2, t = t1 ++ r :: t2 ∧
      (∀ x ∈ t1, x.runNumber < r.runNumber) ∧ (∀ x ∈ t2, x.runNumber ≤ r.runNumber)) := by
  induction t generalizing b with
  | nil =>
    left
    exact ⟨(Option.some.inj h).symm, fun x hx => absurd hx (List.not_mem_nil x)⟩
  | cons a t' ih =>
    rw [List.foldl_cons, scanMaxStep] at h
    by_cases hgt : a.runNumber > b.runNumber
    · rw [if_pos hgt] at h
      rcases ih a h with ⟨hra, hle⟩ | ⟨hlt, t1, t2, heq, h1, h2⟩
      · right
        subst hra
        exact ⟨hgt, [], t', rfl, fun x hx => absurd hx (List.not_mem_nil x), hle⟩
      · right
        refine ⟨lt_trans hgt hlt, a :: t1, t2, by rw [heq, List.cons_append], ?_, h2⟩
        intro x hx
        rcases List.mem_cons.1 hx with hxa | hx1
        · rw [hxa]; exact hlt
        · exact h1 x hx1
    · rw [if_neg hgt] at h
      rcases ih b h with ⟨hrb, hle⟩ | ⟨hlt, t1, t2, heq, h1, h2⟩
      · left
        refine ⟨hrb, fun x hx => ?_⟩
        rcases List.mem_cons.1 hx with hxa | hx1
        · rw [hxa]; omega
        · exact hle x hx1
      · right
        refine ⟨hlt, a :: t1, t2, by rw [heq, List.cons_append], ?_, h2⟩
        intro x hx
        rcases List.mem_cons.1 hx with hxa | hx1
        · rw [hxa]; omega
        · exact h1 x hx1

theorem scanMax_spec (l : List WorkflowRun) (r : WorkflowRun) (h : scanMax l = some r) :
    ∃ l1 l2, l = l1 ++ r :: l2 ∧ (∀ x ∈ l1, x.runNumber < r.runNumber) ∧
      (∀ x ∈ l2, x.runNumber ≤ r.runNumber) := by
  cases l with
  | nil => exact Option.noConfusion h
  | cons a t =>
    rw [scanMax, List.foldl_cons, scanMaxStep] at h
    rcases scanMaxFrom_spec t a r h with ⟨hra, hle⟩ | ⟨hlt, t1, t2, heq, h1, h2⟩
    · subst hra
      exact ⟨[], t, rfl, fun x hx => absurd hx (List.not_mem_nil x), hle⟩
    · refine ⟨a :: t1, t2, by rw [heq, List.cons_append], ?_, h2⟩
      intro x hx
      rcases List.mem_cons.1 hx with hxa | hx1
      · rw [hxa]; exact hlt
      · exact h1 x hx1

/-- C4: if any listed run belongs to workflow `W`, the reduction retains
for `W` a run of `W` that occurs in the list, whose run number is greater
than or equal to every `W`-run's number, and which is the first run of the
scan attaining that number: every `W`-run scanned before it has a strictly
smaller run number (first seen becomes the candidate, replacement only on
strictly greater). -/
theorem C4_latestRuns_max (runs : List WorkflowRun) (W : Int)
    (h : ∃ x ∈ runs, x.workflowID = W) :
    ∃ r, findEntry W (latestRuns runs) = some r ∧ r ∈ runs ∧ r.workflowID = W ∧
      (∀ x ∈ runs, x.workflowID = W → x.runNumber ≤ r.runNumber) ∧
      (∃ l1 l2, runs.filter (fun x => x.workflowID == W) = l1 ++ r :: l2 ∧
        ∀ x ∈ l1, x.runNumber < r.runNumber) := by
  rcases h with ⟨x0, hx0, hW0⟩
  have hx0f : x0 ∈ runs.filter (fun x => x.workflowID == W) :=
    List.mem_filter.2 ⟨hx0, by simp [hW0]⟩
  have hne : runs.filter (fun x => x.workflowID == W) ≠ [] :=
    fun hnil => by rw [hnil] at hx0f; exact absurd hx0f (List.not_mem_nil x0)
  rcases hf : runs.filter (fun x => x.workflowID == W) with _ | ⟨a, t⟩
  · exact absurd hf hne
  · have hsome : ∃ r, scanMax (runs.filter (fun x => x.workflowID == W)) = some r := by
      rw [hf, scanMax, List.foldl_cons, scanMaxStep]
      exact scanMaxFrom_isSome t a
    rcases hsome with ⟨r, hr⟩
    rcases scanMax_spec _ r hr with ⟨l1, l2, heq, h1, h2⟩
    have hrf : r ∈ runs.filter (fun x => x.workflowID == W) := by
      rw [heq]
      exact List.mem_append_right l1 (List.mem_cons_self r l2)
    rcases List.mem_filter.1 hrf with ⟨hrmem, hrW⟩
    refine ⟨r, by rw [latestRuns_findEntry, hr], hrmem, by simpa using hrW, ?_, l1, l2, heq, h1⟩
    intro x hx hxW
    have hxf : x ∈ runs.filter (fun y => y.workflowID == W) :=
      List.mem_filter.2 ⟨hx, by simp [hxW]⟩
    rw [heq] at hxf
    rcases List.mem_append.1 hxf with hx1 | hx2
    · exact le_of_lt (h1 x hx1)
    · rcases List.mem_cons.1 hx2 with hxr | hx2'
      · rw [hxr]
      · exact h2 x hx2'

/-- C4 witness: for runs of workflow 1 with run numbers {3,7,5}, the
retained run has run number 7. -/
theorem C4_latestRuns_max_witness :
    ∃ r, findEntry 1 (latestRuns runsC4) = some r ∧ r.runNumber = 7 := by
  rcases C4_latestRuns_max runsC4 1 ⟨⟨1, 3, "success"⟩, by decide, rfl⟩ with
    ⟨r, hr, -, -, -, -⟩
  refine ⟨r, hr, ?_⟩
  have hcomp : findEntry 1 (latestRuns runsC4) = some ⟨1, 7, "success"⟩ := by decide
  rw [hcomp] at hr
  rw [(Option.some.inj hr).symm]

/-! ## C5 and C6: the Workflow Collector's samples -/

theorem conclusionSamples_eq (fullName : String) (runs : List WorkflowRun) (w : Workflow)
    (latest : WorkflowRun) (h : findEntry w.id (latestRuns runs) = some latest) :
    conclusionSamples fullName runs w = conclusions.map (fun c =>
      { metric := "github_workflow_run_conclusion",
        labels := [("github_repo", fullName), ("workflow_name", w.name),
                   ("github_workflow_run_conclusion", c)],
        value := if c = latest.conclusion then 1 else 0 }) := by
  rw [conclusionSamples, workflowContribution, h]
  dsimp only
  rw [List.filter_cons, if_neg (by simp)]
  refine List.filter_eq_self.2 ?_
  intro s hs
  rcases List.mem_map.1 hs with ⟨c, -, rfl⟩
  rfl

/-- C5: for every workflow with a retained latest run, the collector emits
exactly nine samples on `github_workflow_run_conclusion` for it, one per
conclusion in the fixed set, each valued 1 when its conclusion label equals
the latest run's conclusion and 0 otherwise; when the latest conclusion is
in the fixed set (e.g. "success"), exactly one of the nine is 1 and the
other eight are 0. -/
theorem C5_conclusion_one_hot (fullName : String) (runs : List WorkflowRun) (w : Workflow)
    (latest : WorkflowRun) (h : findEntry w.id (latestRuns runs) = some latest) :
    (conclusionSamples fullName runs w).length = 9 ∧
    (∀ c ∈ conclusions, ∃ s ∈ conclusionSamples fullName runs w,
      s.label "github_workflow_run_conclusion" = some c ∧
      s.value = if c = latest.conclusion then 1 else 0) ∧
    (∀ s ∈ conclusionSamples fullName runs w,
      s.value = if s.label "github_workflow_run_conclusion" = some latest.conclusion
        then 1 else 0) ∧
    (latest.conclusion ∈ conclusions →
      ((conclusionSamples fullName runs w).filter (fun s => s.value == 1)).length = 1 ∧
      ((conclusionSamples fullName runs w).filter (fun s => s.value == 0)).length = 8) := by
  rw [conclusionSamples_eq fullName runs w latest h]
  refine ⟨by rw [List.length_map]; rfl, ?_, ?_, ?_⟩
  · intro c hc
    refine ⟨_, List.mem_map.2 ⟨c, hc, rfl⟩, rfl, rfl⟩
  · intro s hs
    rcases List.mem_map.1 hs with ⟨c, -, rfl⟩
    by_cases hcl : c = latest.conclusion
    · simp [Sample.label, labelValue, hcl]
    · simp [Sample.label, labelValue, hcl]
  · intro hmem
    have hnd : conclusions.Nodup := by decide
    have hone : conclusions.filter (fun c => c == latest.conclusion) = [latest.conclusion] :=
      nodup_filter_single conclusions latest.conclusion hnd hmem
    have hp1 : ∀ c ∈ conclusions,
        ((if c = latest.conclusion then (1 : Int) else 0) == 1) = (c == latest.conclusion) := by
      intro c _
      by_cases hcl : c = latest.conclusion <;> simp [hcl]
    have hp0 : ∀ c ∈ conclusions,
        ((if c = latest.conclusion then (1 : Int) else 0) == 0) = !(c == latest.conclusion) := by
      intro c _
      by_cases hcl : c = latest.conclusion <;> simp [hcl]
    constructor
    · rw [filterOfMap, List.length_map, List.filter_congr hp1, hone]
      rfl
    · rw [filterOfMap, List.length_map, List.filter_congr hp0]
      have htot : (conclusions.filter (fun c => c == latest.conclusion)).length +
          (conclusions.filter (fun c => !(c == latest.conclusion))).length =
            conclusions.length :=
        length_filter_neg (fun c => c == latest.conclusion) conclusions
      have h9 : conclusions.length = 9 := rfl
      rw [hone, h9] at htot
      simp only [List.length_singleton] at htot
      omega

/-- C5 witness: for a latest run with conclusion "success", nine conclusion
samples are emitted, exactly one valued 1 and eight valued 0. -/
theorem C5_conclusion_one_hot_witness :
    (conclusionSamples "josh/r" [runC5] wfC5).length = 9 ∧
    ((conclusionSamples "josh/r" [runC5] wfC5).filter (fun s => s.value == 1)).length = 1 ∧
    ((conclusionSamples "josh/r" [runC5] wfC5).filter (fun s => s.value == 0)).length = 8 := by
  have h := C5_conclusion_one_hot "josh/r" [runC5] wfC5 runC5 (by decide)
  exact ⟨h.1, (h.2.2.2 (by decide)).1, (h.2.2.2 (by decide)).2⟩

theorem contribution_wname (fullName : String) (runs : List WorkflowRun) (w' : Workflow) :
    ∀ s ∈ workflowContribution fullName runs w',
      s.label "workflow_name" = some w'.name := by
  intro s hs
  rw [workflowContribution] at hs
  cases hfe : findEntry w'.id (latestRuns runs) with
  | none =>
    rw [hfe] at hs
    exact absurd hs (List.not_mem_nil s)
  | some latest =>
    rw [hfe] at hs
    dsimp only at hs
    rcases List.mem_cons.1 hs with rfl | hmap
    · rfl
    · rcases List.mem_map.1 hmap with ⟨c, -, rfl⟩
      rfl

/-- C6: a workflow with no completed run among the listed ones (hence no
retained latest run) contributes no sample at all — and, when no other
workflow shares its display name, the collector's whole output contains no
sample labelled with its name on either workflow metric. -/
theorem C6_no_runs_no_samples (fullName : String) (runs : List WorkflowRun)
    (workflows : List Workflow) (w : Workflow) (hw : w ∈ workflows)
    (hno : ∀ run ∈ runs, run.workflowID ≠ w.id) :
    workflowContribution fullName runs w = [] ∧
    ((∀ w' ∈ workflows, w'.name = w.name → w' = w) →
      (updateWorkflowRunMetricsSamples fullName runs workflows).filter
        (fun s => s.label "workflow_name" == some w.name) = []) := by
  have hfilter : runs.filter (fun x => x.workflowID == w.id) = [] :=
    List.filter_eq_nil_iff.2 (fun x hx => by simp [hno x hx])
  have hfe : findEntry w.id (latestRuns runs) = none := by
    rw [latestRuns_findEntry, hfilter]
    rfl
  have hcontrib : workflowContribution fullName runs w = [] := by
    rw [workflowContribution, hfe]
  refine ⟨hcontrib, fun huniq => ?_⟩
  rw [updateWorkflowRunMetricsSamples, filterOfFlatMap]
  apply flatMapOfNil
  intro w' hw'
  by_cases hww : w' = w
  · subst hww
    rw [hcontrib]
    rfl
  · refine List.filter_eq_nil_iff.2 (fun s hs => ?_)
    have hlab : s.label "workflow_name" = some w'.name :=
      contribution_wname fullName runs w' s hs
    have hne : w'.name ≠ w.name := fun hnm => hww (huniq w' hw' hnm)
    simp [hlab, hne]

/-- C6 witness: workflow 2 has no run among the listed runs (all belong to
workflow 1), so it contributes no sample and nothing in the output carries
its name. -/
theorem C6_no_runs_no_samples_witness :
    workflowContribution "josh/r" [runC5] wfC6 = [] ∧
    (updateWorkflowRunMetricsSamples "josh/r" [runC5] [wfC5, wfC6]).filter
      (fun s => s.label "workflow_name" == some wfC6.name) = [] := by
  have h := C6_no_runs_no_samples "josh/r" [runC5] [wfC5, wfC6] wfC6 (by decide)
    (by intro run hrun; fin_cases hrun <;> decide)
  exact ⟨h.1, h.2 (by intro w' hw' hnm; fin_cases hw' <;> first | rfl | exact absurd hnm (by decide))⟩

/-! ## C7: the Workflow Collector's run listing -/

/-- C7 (amended): the reduction considers exactly the runs of the single
response page of one request (default branch, status completed, page size
100, first page); the response's next-page cursor is never followed, so
the considered runs — and hence the whole reduction — depend only on that
first page. -/
theorem C7_runs_first_page_only (s1 s2 : RunSource) (repo : Repo)
    (h : s1 (listRunsRequest repo) = s2 (listRunsRequest repo)) :
    listedWorkflowRuns s1 repo = (s1 (listRunsRequest repo)).1 ∧
    listRunsRequest repo =
      { branch := repo.defaultBranch, status := "completed", perPage := 100, page := 0 } ∧
    latestRuns (listedWorkflowRuns s1 repo) = latestRuns (listedWorkflowRuns s2 repo) := by
  refine ⟨rfl, rfl, ?_⟩
  rw [listedWorkflowRuns, listedWorkflowRuns, h]

/-- C7 witness: two sources that agree on the first page yield the same
reduction even though their later pages differ. -/
theorem C7_runs_first_page_only_witness :
    latestRuns (listedWorkflowRuns cexRunSource cexRepo) =
      latestRuns (listedWorkflowRuns witRunSource cexRepo) := by
  exact (C7_runs_first_page_only cexRunSource witRunSource cexRepo rfl).2.2

set_option maxRecDepth 10000 in
/-- C7 counterexample: the claim fails on the code.  With a full first page
(100 runs of workflow 1, numbers 1..100) and the latest run (number 101) on
the page the source reports as next, the reduction retains run number 100:
the run on the second page never participates because pagination is not
followed. -/
theorem C7_pagination_cex :
    (cexRunSource (listRunsRequest cexRepo)).2 = 2 ∧
    (⟨1, 101, "failure"⟩ : WorkflowRun) ∈
      (cexRunSource { listRunsRequest cexRepo with page := 2 }).1 ∧
    (listedWorkflowRuns cexRunSource cexRepo).length = 100 ∧
    findEntry 1 (latestRuns (listedWorkflowRuns cexRunSource cexRepo)) =
      some ⟨1, 100, "success"⟩ ∧
    (⟨1, 101, "failure"⟩ : WorkflowRun) ∉ listedWorkflowRuns cexRunSource cexRepo := by
  refine ⟨rfl, by decide, by decide, by decide, by decide⟩

/-! ## C8: the Issue/PR Collector -/

theorem issueNodeSamples_repo (n : IssueRepoNode) :
    ∀ s ∈ issueNodeSamples n, s.label "github_repo" = some n.nameWithOwner := by
  intro s hs
  fin_cases hs <;> rfl

theorem issueNodeSamples_filter (m n : IssueRepoNode) :
    (issueNodeSamples m).filter (fun s => s.label "github_repo" == some n.nameWithOwner) =
      if m.nameWithOwner == n.nameWithOwner then issueNodeSamples m else [] := by
  by_cases h : m.nameWithOwner = n.nameWithOwner
  · rw [if_pos (by simp [h])]
    refine List.filter_eq_self.2 (fun s hs => ?_)
    rw [issueNodeSamples_repo m s hs]
    simp [h]
  · rw [if_neg (by simp [h])]
    refine List.filter_eq_nil_iff.2 (fun s hs => ?_)
    rw [issueNodeSamples_repo m s hs]
    simp [h]

/-- C8: for every node of the batched response that is the only node with
its repository name, the Issue/PR Collector emits exactly the four samples
(issue/open, issue/closed, pull/open, pull/closed) carrying that name,
valued at the four totals of the batched query. -/
theorem C8_issue_four_samples (nodes : List IssueRepoNode) (n : IssueRepoNode)
    (hmem : n ∈ nodes)
    (huniq : (nodes.filter (fun m => m.nameWithOwner == n.nameWithOwner)).length = 1) :
    (updateIssueMetricsSamples nodes).filter
      (fun s => s.label "github_repo" == some n.nameWithOwner) = issueNodeSamples n ∧
    (issueNodeSamples n).map Sample.value =
      [n.openIssues, n.closedIssues, n.openPulls, n.closedPulls] ∧
    (issueNodeSamples n).length = 4 := by
  have hfn : nodes.filter (fun m => m.nameWithOwner == n.nameWithOwner) = [n] := by
    have hnmem : n ∈ nodes.filter (fun m => m.nameWithOwner == n.nameWithOwner) :=
      List.mem_filter.2 ⟨hmem, by simp⟩
    rcases List.length_eq_one.1 huniq with ⟨a, ha⟩
    rw [ha] at hnmem
    rw [ha, List.mem_singleton.1 hnmem]
  refine ⟨?_, rfl, rfl⟩
  rw [updateIssueMetricsSamples, filterOfFlatMap]
  simp only [issueNodeSamples_filter]
  rw [flatMapIteFilter, hfn]
  simp

/-- C8 witness: the scenario of the claim — repo "x" with openIssues 3,
closedIssues 1, openPulls 0, closedPulls 2 yields exactly those four
samples. -/
theorem C8_issue_four_samples_witness :
    (updateIssueMetricsSamples [nodeC8]).filter
      (fun s => s.label "github_repo" == some nodeC8.nameWithOwner) = issueNodeSamples nodeC8 ∧
    (issueNodeSamples nodeC8).map Sample.value = [3, 1, 0, 2] := by
  have h := C8_issue_four_samples [nodeC8] nodeC8 (by decide) (by decide)
  exact ⟨h.1, h.2.1⟩

/-! ## C9: the repository-count metric -/

theorem repoKeyLabels_inj (a b : String × String × String)
    (h : ([("owner", a.1), ("visibility", a.2.1), ("archived", a.2.2)] :
          List (String × String)) =
         [("owner", b.1), ("visibility", b.2.1), ("archived", b.2.2)]) :
    a = b := by
  rcases a with ⟨a1, a2, a3⟩
  rcases b with ⟨b1, b2, b3⟩
  simp only [List.cons.injEq, Prod.mk.injEq] at h
  obtain ⟨⟨-, h1⟩, ⟨-, h2⟩, ⟨-, h3⟩, -⟩ := h
  simp [h1, h2, h3]

/-- C9: `updateRepoCountMetrics` writes, for every (owner, visibility,
archived) combination occurring among the enumerated repositories, exactly
one `github_repo_count` sample, valued at the number of repositories in
that group; archived repositories are counted (the full list is counted,
and an archived repository's group is present) even though they are
excluded from the workflow fan-out. -/
theorem C9_repo_count (repos : List Repo) (k : String × String × String)
    (h : ∃ r ∈ repos, repoKey r = k) :
    (updateRepoCountMetricsSamples repos).filter
      (fun s => s.labels == [("owner", k.1), ("visibility", k.2.1), ("archived", k.2.2)]) =
      [{ metric := "github_repo_count",
         labels := [("owner", k.1), ("visibility", k.2.1), ("archived", k.2.2)],
         value := ((repos.filter (fun r => repoKey r = k)).length : Int) }] ∧
    ∀ r ∈ repos, r.archived = true →
      r ∈ repos.filter (fun x => repoKey x = repoKey r) ∧ r ∉ workflowRepos repos := by
  constructor
  · rcases h with ⟨r0, hr0, hk0⟩
    have hkmem : k ∈ (repos.map repoKey).dedup :=
      List.mem_dedup.2 (List.mem_map.2 ⟨r0, hr0, hk0⟩)
    rw [updateRepoCountMetricsSamples, filterOfMap]
    have hpred : ∀ k' ∈ (repos.map repoKey).dedup,
        (([("owner", k'.1), ("visibility", k'.2.1), ("archived", k'.2.2)] :
           List (String × String)) ==
          [("owner", k.1), ("visibility", k.2.1), ("archived", k.2.2)]) = (k' == k) := by
      intro k' _
      by_cases hk : k' = k
      · subst hk
        simp
      · have h1 : (k' == k) = false := by simp [hk]
        have h2 : ([("owner", k'.1), ("visibility", k'.2.1), ("archived", k'.2.2)] :
            List (String × String)) ≠
            [("owner", k.1), ("visibility", k.2.1), ("archived", k.2.2)] :=
          fun heq => hk (repoKeyLabels_inj k' k heq)
        rw [beq_eq_false_iff_ne.2 h2, h1]
    rw [List.filter_congr hpred,
      nodup_filter_single _ k (List.nodup_dedup (repos.map repoKey)) hkmem]
    rfl
  · intro r hr harch
    constructor
    · exact List.mem_filter.2 ⟨hr, by simp⟩
    · rw [workflowRepos]
      intro hmem
      rcases List.mem_filter.1 hmem with ⟨-, hb⟩
      rw [harch] at hb
      exact Bool.noConfusion hb

/-- C9 witness: for the account with repositories a (public, not archived)
and b (public, archived), the (u, public, true) group — the archived one —
gets exactly one sample with value 1, and the archived repository is not in
the workflow fan-out. -/
theorem C9_repo_count_witness :
    (updateRepoCountMetricsSamples [repoA, repoB]).filter
      (fun s => s.labels == [("owner", "u"), ("visibility", "public"), ("archived", "true")]) =
      [{ metric := "github_repo_count",
         labels := [("owner", "u"), ("visibility", "public"), ("archived", "true")],
         value := 1 }] ∧
    repoB ∉ workflowRepos [repoA, repoB] := by
  have h := C9_repo_count [repoA, repoB] ("u", "public", "true") ⟨repoB, by decide, by decide⟩
  refine ⟨?_, (h.2 repoB (by decide) rfl).2⟩
  rw [h.1]
  decide

/-- C2 counterexample: the claim fails on the code.  For the account with
repositories a (not archived) and b (archived), with the source returning
the page ordered b before a, the enumerator returns [b, a]: the archived
repository b is not excluded (the output is not "only a"), and the output
is in the source's order, not sorted by full name ascending ("u/b" before
"u/a"). -/
theorem C2_fetchUserRepos_cex :
    fetchUserRepos cexRepoSource 5 userRepoListOpts = some [repoB, repoA] ∧
    repoB.archived = true ∧
    fetchUserRepos cexRepoSource 5 userRepoListOpts ≠ some [repoA] ∧
    [repoB, repoA].map Repo.fullName = ["u/b", "u/a"] ∧
    ¬ List.Sorted (fun a b : String => a ≤ b) ["u/b", "u/a"] := by
  refine ⟨by decide, rfl, by decide, rfl, ?_⟩
  intro hs
  have hle : ("u/b" : String) ≤ "u/a" :=
    (List.sorted_cons.1 hs).1 "u/a" (List.mem_singleton.2 rfl)
  have hlt : ("u/a" : String) < "u/b" := by
    simp only [String.lt_iff_toList_lt]
    decide
  exact absurd hle (not_le.2 hlt)

/-! ## Machine lemmas for the Update Orchestrator -/

theorem setGet_self {α : Type} :
    ∀ (l : List α) (i : Nat) (a : α), i < l.length → (l.set i a)[i]? = some a
  | [], i, _, h => by simp at h
  | x :: t, 0, a, _ => by simp [List.set]
  | x :: t, i + 1, a, h => by
    have h' : i < t.length := by simpa [List.length_cons] using h
    simp [List.set, List.getElem?_cons_succ, setGet_self t i a h']

theorem ltOfGet {α : Type} :
    ∀ (l : List α) (i : Nat) (a : α), l[i]? = some a → i < l.length
  | [], i, a, h => by simp at h
  | x :: t, 0, a, _ => by simp
  | x :: t, i + 1, a, h => by
    have := ltOfGet t i a (by simpa [List.getElem?_cons_succ] using h)
    simpa [List.length_cons] using Nat.succ_lt_succ this

theorem setGet_ne {α : Type} :
    ∀ (l : List α) (i j : Nat) (a : α), i ≠ j → (l.set i a)[j]? = l[j]?
  | [], _, _, _, _ => rfl
  | x :: t, 0, 0, a, h => absurd rfl h
  | x :: t, 0, j + 1, a, _ => by simp [List.set, List.getElem?_cons_succ]
  | x :: t, i + 1, 0, a, _ => by simp [List.set, List.getElem?_cons_zero]
  | x :: t, i + 1, j + 1, a, h => by
    simp [List.set, List.getElem?_cons_succ,
      setGet_ne t i j a (fun hij => h (by rw [hij]))]

theorem memOfGet {α : Type} :
    ∀ (l : List α) (i : Nat) (a : α), l[i]? = some a → a ∈ l
  | [], i, a, h => by simp at h
  | x :: t, 0, a, h => by
    have hx : some x = some a := by simpa [List.getElem?_cons_zero] using h
    exact List.mem_cons.2 (Or.inl (Option.some.inj hx).symm)
  | x :: t, i + 1, a, h => by
    refine List.mem_cons.2 (Or.inr (memOfGet t i a ?_))
    simpa [List.getElem?_cons_succ] using h

theorem fireOuter_sink (st : MState) (e : Option Err) : (fireOuter st e).sink = st.sink := by
  cases e <;> rfl

theorem fireOuter_notifSt (st : MState) (e : Option Err) :
    (fireOuter st e).notifSt = st.notifSt := by
  cases e <;> rfl

theorem fireOuter_issueSt (st : MState) (e : Option Err) :
    (fireOuter st e).issueSt = st.issueSt := by
  cases e <;> rfl

theorem fireOuter_pipeSt (st : MState) (e : Option Err) :
    (fireOuter st e).pipeSt = st.pipeSt := by
  cases e <;> rfl

theorem fireOuter_innerErr (st : MState) (e : Option Err) :
    (fireOuter st e).innerErr = st.innerErr := by
  cases e <;> rfl

theorem errOnce_isSome (s : Option Err) (e : Err) : (errOnce s e).isSome = true := by
  cases s <;> rfl

theorem errOnce_of_isSome (s : Option Err) (e : Err) (h : s.isSome = true) :
    errOnce s e = s := by
  cases s with
  | none => exact Bool.noConfusion h
  | some x => rfl

theorem inv_stepNotif (cfg : Config) (st : MState) (h : MInv cfg st) :
    MInv cfg (stepNotif cfg st) := by
  rw [stepNotif]
  cases hts : st.notifSt with
  | done r =>
    simp only [stepTask, fireOuter, List.append_nil]
    rw [← hts]
    exact h
  | running rem =>
    cases rem with
    | nil =>
      simp only [stepTask, fireOuter]
      refine ⟨?_, ?_, ?_, ?_, ?_, ?_, ?_, ?_, ?_, ?_⟩
      · intro _ x hx
        exact List.mem_append_right _ hx
      · intro hd x hx
        exact List.mem_append_left _ (h.issueDone hd x hx)
      · intro sts hsts i spec hspec hdone x hx
        exact List.mem_append_left _ (h.innerDone sts hsts i spec hspec hdone x hx)
      · intro e he
        rcases h.outerSrc e he with h1 | h2 | h3
        · rw [hts] at h1
          exact TStatus.noConfusion h1
        · exact Or.inr (Or.inl h2)
        · exact Or.inr (Or.inr h3)
      · intro e he
        exact Option.noConfusion (TStatus.done.inj he)
      · exact h.issueFired
      · exact h.pipeFired
      · exact h.pipeDoneAll
      · exact h.lenInner
      · exact h.lenDone
    | cons c rest =>
      by_cases hc : outerCancelled st = true
      · simp only [stepTask, if_pos hc, fireOuter]
        have houter : errOnce st.outerErr
            (Err.wrapped (notifSpec cfg).label Err.canceled) = st.outerErr :=
          errOnce_of_isSome _ _ hc
        rw [houter, List.append_nil]
        refine ⟨?_, ?_, ?_, ?_, ?_, ?_, ?_, ?_, ?_, ?_⟩
        · intro hd
          exact Option.noConfusion (TStatus.done.inj hd)
        · exact h.issueDone
        · exact h.innerDone
        · intro e he
          rcases h.outerSrc e he with h1 | h2 | h3
          · rw [hts] at h1
            exact TStatus.noConfusion h1
          · exact Or.inr (Or.inl h2)
          · exact Or.inr (Or.inr h3)
        · intro e _
          exact hc
        · exact h.issueFired
        · exact h.pipeFired
        · exact h.pipeDoneAll
        · exact h.lenInner
        · exact h.lenDone
      · have hnone : st.outerErr = none := by
          cases ho : st.outerErr with
          | none => rfl
          | some x => exact absurd (by rw [outerCancelled, ho]; rfl) hc
        cases c with
        | some e0 =>
          simp only [stepTask, if_neg hc, fireOuter]
          rw [hnone]
          simp only [errOnce, List.append_nil]
          refine ⟨?_, ?_, ?_, ?_, ?_, ?_, ?_, ?_, ?_, ?_⟩
          · intro hd
            exact Option.noConfusion (TStatus.done.inj hd)
          · exact h.issueDone
          · exact h.innerDone
          · intro e he
            exact Or.inl (by rw [Option.some.inj he])
          · intro e _
            rfl
          · intro e _
            rfl
          · intro e fs _
            rfl
          · exact h.pipeDoneAll
          · exact h.lenInner
          · exact h.lenDone
        | none =>
          simp only [stepTask, if_neg hc, fireOuter]
          rw [List.append_nil]
          refine ⟨?_, ?_, ?_, ?_, ?_, ?_, ?_, ?_, ?_, ?_⟩
          · intro hd
            exact TStatus.noConfusion hd
          · exact h.issueDone
          · exact h.innerDone
          · intro e he
            rcases h.outerSrc e he with h1 | h2 | h3
            · rw [hts] at h1
              exact TStatus.noConfusion h1
            · exact Or.inr (Or.inl h2)
            · exact Or.inr (Or.inr h3)
          · intro e he
            exact TStatus.noConfusion he
          · exact h.issueFired
          · exact h.pipeFired
          · exact h.pipeDoneAll
          · exact h.lenInner
          · exact h.lenDone

theorem inv_stepIssue (cfg : Config) (st : MState) (h : MInv cfg st) :
    MInv cfg (stepIssue cfg st) := by
  rw [stepIssue]
  cases hts : st.issueSt with
  | done r =>
    simp only [stepTask, fireOuter, List.append_nil]
    rw [← hts]
    exact h
  | running rem =>
    cases rem with
    | nil =>
      simp only [stepTask, fireOuter]
      refine ⟨?_, ?_, ?_, ?_, ?_, ?_, ?_, ?_, ?_, ?_⟩
      · intro hd x hx
        exact List.mem_append_left _ (h.notifDone hd x hx)
      · intro _ x hx
        exact List.mem_append_right _ hx
      · intro sts hsts i spec hspec hdone x hx
        exact List.mem_append_left _ (h.innerDone sts hsts i spec hspec hdone x hx)
      · intro e he
        rcases h.outerSrc e he with h1 | h2 | h3
        · exact Or.inl h1
        · rw [hts] at h2
          exact TStatus.noConfusion h2
        · exact Or.inr (Or.inr h3)
      · exact h.notifFired
      · intro e he
        exact Option.noConfusion (TStatus.done.inj he)
      · exact h.pipeFired
      · exact h.pipeDoneAll
      · exact h.lenInner
      · exact h.lenDone
    | cons c rest =>
      by_cases hc : outerCancelled st = true
      · simp only [stepTask, if_pos hc, fireOuter]
        have houter : errOnce st.outerErr
            (Err.wrapped (issueSpec cfg).label Err.canceled) = st.outerErr :=
          errOnce_of_isSome _ _ hc
        rw [houter, List.append_nil]
        refine ⟨?_, ?_, ?_, ?_, ?_, ?_, ?_, ?_, ?_, ?_⟩
        · exact h.notifDone
        · intro hd
          exact Option.noConfusion (TStatus.done.inj hd)
        · exact h.innerDone
        · intro e he
          rcases h.outerSrc e he with h1 | h2 | h3
          · exact Or.inl h1
          · rw [hts] at h2
            exact TStatus.noConfusion h2
          · exact Or.inr (Or.inr h3)
        · exact h.notifFired
        · intro e _
          exact hc
        · exact h.pipeFired
        · exact h.pipeDoneAll
        · exact h.lenInner
        · exact h.lenDone
      · have hnone : st.outerErr = none := by
          cases ho : st.outerErr with
          | none => rfl
          | some x => exact absurd (by rw [outerCancelled, ho]; rfl) hc
        cases c with
        | some e0 =>
          simp only [stepTask, if_neg hc, fireOuter]
          rw [hnone]
          simp only [errOnce, List.append_nil]
          refine ⟨?_, ?_, ?_, ?_, ?_, ?_, ?_, ?_, ?_, ?_⟩
          · exact h.notifDone
          · intro hd
            exact Option.noConfusion (TStatus.done.inj hd)
          · exact h.innerDone
          · intro e he
            exact Or.inr (Or.inl (by rw [Option.some.inj he]))
          · intro e _
            rfl
          · intro e _
            rfl
          · intro e fs _
            rfl
          · exact h.pipeDoneAll
          · exact h.lenInner
          · exact h.lenDone
        | none =>
          simp only [stepTask, if_neg hc, fireOuter]
          rw [List.append_nil]
          refine ⟨?_, ?_, ?_, ?_, ?_, ?_, ?_, ?_, ?_, ?_⟩
          · exact h.notifDone
          · intro hd
            exact TStatus.noConfusion hd
          · exact h.innerDone
          · intro e he
            rcases h.outerSrc e he with h1 | h2 | h3
            · exact Or.inl h1
            · rw [hts] at h2
              exact TStatus.noConfusion h2
            · exact Or.inr (Or.inr h3)
          · exact h.notifFired
          · intro e he
            exact TStatus.noConfusion he
          · exact h.pipeFired
          · exact h.pipeDoneAll
          · exact h.lenInner
          · exact h.lenDone

theorem inv_stepFetch (cfg : Config) (st : MState) (h : MInv cfg st) :
    MInv cfg (stepFetch cfg st) := by
  rw [stepFetch]
  cases hps : st.pipeSt with
  | inner sts => exact h
  | done r fs => exact h
  | fetching rem =>
    cases rem with
    | nil =>
      refine ⟨h.notifDone, h.issueDone, ?_, ?_, h.notifFired, h.issueFired, ?_, ?_, ?_, ?_⟩
      · intro sts hsts i spec hspec hdone x _
        rcases hsts with hi | ⟨r, hr⟩
        · have hsts' := (PipeStatus.inner.inj hi).symm
          rw [hsts', List.getElem?_map, hspec] at hdone
          exact TStatus.noConfusion (Option.some.inj hdone)
        · exact PipeStatus.noConfusion hr
      · intro e he
        rcases h.outerSrc e he with h1 | h2 | ⟨fs, h3⟩
        · exact Or.inl h1
        · exact Or.inr (Or.inl h2)
        · rw [hps] at h3
          exact PipeStatus.noConfusion h3
      · intro e fs he
        exact PipeStatus.noConfusion he
      · intro r fs he
        exact PipeStatus.noConfusion he
      · intro sts hi
        rw [← (PipeStatus.inner.inj hi)]
        exact List.length_map _ _
      · intro r fs he
        exact PipeStatus.noConfusion he
    | cons c rest =>
      by_cases hc : outerCancelled st = true
      · simp only [if_pos hc, fireOuter]
        have houter : errOnce st.outerErr
            (Err.wrapped "fetching repos" Err.canceled) = st.outerErr :=
          errOnce_of_isSome _ _ hc
        rw [houter]
        refine ⟨h.notifDone, h.issueDone, ?_, ?_, h.notifFired, h.issueFired, ?_, ?_, ?_, ?_⟩
        · intro sts hsts i spec hspec hdone x _
          rcases hsts with hi | ⟨r, hr⟩
          · exact PipeStatus.noConfusion hi
          · rw [← (PipeStatus.done.inj hr).2] at hdone
            simp at hdone
        · intro e he
          rcases h.outerSrc e he with h1 | h2 | ⟨fs, h3⟩
          · exact Or.inl h1
          · exact Or.inr (Or.inl h2)
          · rw [hps] at h3
            exact PipeStatus.noConfusion h3
        · intro e fs _
          exact hc
        · intro r fs he
          rw [← (PipeStatus.done.inj he).2]
          rfl
        · intro sts hi
          exact PipeStatus.noConfusion hi
        · intro r fs he
          refine Or.inr ?_
          rw [← (PipeStatus.done.inj he).1]
          exact fun hx => Option.noConfusion hx
      · have hnone : st.outerErr = none := by
          cases ho : st.outerErr with
          | none => rfl
          | some x => exact absurd (by rw [outerCancelled, ho]; rfl) hc
        cases c with
        | some e0 =>
          simp only [if_neg hc, fireOuter]
          rw [hnone]
          simp only [errOnce]
          refine ⟨h.notifDone, h.issueDone, ?_, ?_, ?_, ?_, ?_, ?_, ?_, ?_⟩
          · intro sts hsts i spec hspec hdone x _
            rcases hsts with hi | ⟨r, hr⟩
            · exact PipeStatus.noConfusion hi
            · rw [← (PipeStatus.done.inj hr).2] at hdone
              simp at hdone
          · intro e he
            refine Or.inr (Or.inr ⟨[], ?_⟩)
            rw [Option.some.inj he]
          · intro e _
            rfl
          · intro e _
            rfl
          · intro e fs _
            rfl
          · intro r fs he
            rw [← (PipeStatus.done.inj he).2]
            rfl
          · intro sts hi
            exact PipeStatus.noConfusion hi
          · intro r fs he
            refine Or.inr ?_
            rw [← (PipeStatus.done.inj he).1]
            exact fun hx => Option.noConfusion hx
        | none =>
          simp only [if_neg hc]
          refine ⟨h.notifDone, h.issueDone, ?_, ?_, h.notifFired, h.issueFired, ?_, ?_, ?_, ?_⟩
          · intro sts hsts i spec hspec hdone x _
            rcases hsts with hi | ⟨r, hr⟩
            · exact PipeStatus.noConfusion hi
            · exact PipeStatus.noConfusion hr
          · intro e he
            rcases h.outerSrc e he with h1 | h2 | ⟨fs, h3⟩
            · exact Or.inl h1
            · exact Or.inr (Or.inl h2)
            · rw [hps] at h3
              exact PipeStatus.noConfusion h3
          · intro e fs he
            exact PipeStatus.noConfusion he
          · intro r fs he
            exact PipeStatus.noConfusion he
          · intro sts hi
            exact PipeStatus.noConfusion hi
          · intro r fs he
            exact PipeStatus.noConfusion he

theorem inv_innerNoFire (cfg : Config) (i : Nat) (st : MState) (sts : List TStatus)
    (spec : TaskSpec) (ts' : TStatus) (out : List Sample) (ie : Option Err)
    (h : MInv cfg st) (hps : st.pipeSt = .inner sts)
    (hspec : (innerSpecs cfg)[i]? = some spec) (hi : i < sts.length)
    (hdone2 : ts' = TStatus.done none → ∀ x ∈ spec.samples, x ∈ st.sink ++ out) :
    MInv cfg { st with pipeSt := .inner (sts.set i ts'), innerErr := ie,
                       sink := st.sink ++ out } := by
  refine ⟨?_, ?_, ?_, ?_, h.notifFired, h.issueFired, ?_, ?_, ?_, ?_⟩
  · intro hd x hx
    exact List.mem_append_left _ (h.notifDone hd x hx)
  · intro hd x hx
    exact List.mem_append_left _ (h.issueDone hd x hx)
  · intro sts0 hsts0 j spec' hspec' hdone' x hx
    rcases hsts0 with hi0 | ⟨r1, hr1⟩
    · have hsts0' : sts0 = sts.set i ts' := (PipeStatus.inner.inj hi0).symm
      subst hsts0'
      by_cases hij : j = i
      · subst hij
        rw [setGet_self sts j ts' hi] at hdone'
        have hts' : ts' = TStatus.done none := Option.some.inj hdone'
        have hspeq : spec' = spec := by
          rw [hspec] at hspec'
          exact (Option.some.inj hspec').symm
        rw [hspeq] at hx
        exact hdone2 hts' x hx
      · rw [setGet_ne sts i j ts' (fun he => hij he.symm)] at hdone'
        exact List.mem_append_left _
          (h.innerDone sts (Or.inl hps) j spec' hspec' hdone' x hx)
    · exact PipeStatus.noConfusion hr1
  · intro e he
    rcases h.outerSrc e he with h1 | h2 | ⟨fs, h3⟩
    · exact Or.inl h1
    · exact Or.inr (Or.inl h2)
    · rw [hps] at h3
      exact PipeStatus.noConfusion h3
  · intro e fs he
    exact PipeStatus.noConfusion he
  · intro r fs he
    exact PipeStatus.noConfusion he
  · intro sts0 hi0
    rw [← (PipeStatus.inner.inj hi0), List.length_set]
    exact h.lenInner sts hps
  · intro r fs he
    exact PipeStatus.noConfusion he

theorem inv_innerFireNil (cfg : Config) (i : Nat) (st : MState) (sts : List TStatus)
    (spec : TaskSpec) (ts' : TStatus) (out : List Sample) (ie : Option Err)
    (h : MInv cfg st) (hps : st.pipeSt = .inner sts)
    (hspec : (innerSpecs cfg)[i]? = some spec) (hi : i < sts.length)
    (hdone2 : ts' = TStatus.done none → ∀ x ∈ spec.samples, x ∈ st.sink ++ out)
    (hall : (sts.set i ts').all TStatus.isDone = true) :
    MInv cfg { st with pipeSt := .done none (sts.set i ts'), innerErr := ie,
                       sink := st.sink ++ out } := by
  refine ⟨?_, ?_, ?_, ?_, h.notifFired, h.issueFired, ?_, ?_, ?_, ?_⟩
  · intro hd x hx
    exact List.mem_append_left _ (h.notifDone hd x hx)
  · intro hd x hx
    exact List.mem_append_left _ (h.issueDone hd x hx)
  · intro sts0 hsts0 j spec' hspec' hdone' x hx
    rcases hsts0 with hi0 | ⟨r1, hr1⟩
    · exact PipeStatus.noConfusion hi0
    · have hsts0' : sts0 = sts.set i ts' := ((PipeStatus.done.inj hr1).2).symm
      subst hsts0'
      by_cases hij : j = i
      · subst hij
        rw [setGet_self sts j ts' hi] at hdone'
        have hts' : ts' = TStatus.done none := Option.some.inj hdone'
        have hspeq : spec' = spec := by
          rw [hspec] at hspec'
          exact (Option.some.inj hspec').symm
        rw [hspeq] at hx
        exact hdone2 hts' x hx
      · rw [setGet_ne sts i j ts' (fun he => hij he.symm)] at hdone'
        exact List.mem_append_left _
          (h.innerDone sts (Or.inl hps) j spec' hspec' hdone' x hx)
  · intro e he
    rcases h.outerSrc e he with h1 | h2 | ⟨fs, h3⟩
    · exact Or.inl h1
    · exact Or.inr (Or.inl h2)
    · rw [hps] at h3
      exact PipeStatus.noConfusion h3
  · intro e fs he
    exact Option.noConfusion ((PipeStatus.done.inj he).1)
  · intro r fs he
    rw [← (PipeStatus.done.inj he).2]
    exact hall
  · intro sts0 hi0
    exact PipeStatus.noConfusion hi0
  · intro r fs he
    refine Or.inl ?_
    rw [← (PipeStatus.done.inj he).2, List.length_set]
    exact h.lenInner sts hps

theorem inv_innerFire (cfg : Config) (i : Nat) (st : MState) (sts : List TStatus)
    (spec : TaskSpec) (ts' : TStatus) (out : List Sample) (g : Err) (ie : Option Err)
    (h : MInv cfg st) (hps : st.pipeSt = .inner sts)
    (hspec : (innerSpecs cfg)[i]? = some spec) (hi : i < sts.length)
    (hdone2 : ts' = TStatus.done none → ∀ x ∈ spec.samples, x ∈ st.sink ++ out)
    (hall : (sts.set i ts').all TStatus.isDone = true) :
    MInv cfg { st with pipeSt := .done (some g) (sts.set i ts'), innerErr := ie,
                       outerErr := errOnce st.outerErr g,
                       sink := st.sink ++ out } := by
  refine ⟨?_, ?_, ?_, ?_, ?_, ?_, ?_, ?_, ?_, ?_⟩
  · intro hd x hx
    exact List.mem_append_left _ (h.notifDone hd x hx)
  · intro hd x hx
    exact List.mem_append_left _ (h.issueDone hd x hx)
  · intro sts0 hsts0 j spec' hspec' hdone' x hx
    rcases hsts0 with hi0 | ⟨r1, hr1⟩
    · exact PipeStatus.noConfusion hi0
    · have hsts0' : sts0 = sts.set i ts' := ((PipeStatus.done.inj hr1).2).symm
      subst hsts0'
      by_cases hij : j = i
      · subst hij
        rw [setGet_self sts j ts' hi] at hdone'
        have hts' : ts' = TStatus.done none := Option.some.inj hdone'
        have hspeq : spec' = spec := by
          rw [hspec] at hspec'
          exact (Option.some.inj hspec').symm
        rw [hspeq] at hx
        exact hdone2 hts' x hx
      · rw [setGet_ne sts i j ts' (fun he => hij he.symm)] at hdone'
        exact List.mem_append_left _
          (h.innerDone sts (Or.inl hps) j spec' hspec' hdone' x hx)
  · intro e he
    cases ho : st.outerErr with
    | some x =>
      rw [ho] at he
      simp only [errOnce] at he
      rcases h.outerSrc e (by rw [ho, Option.some.inj he]) with h1 | h2 | ⟨fs, h3⟩
      · exact Or.inl h1
      · exact Or.inr (Or.inl h2)
      · rw [hps] at h3
        exact PipeStatus.noConfusion h3
    | none =>
      rw [ho] at he
      simp only [errOnce] at he
      refine Or.inr (Or.inr ⟨sts.set i ts', ?_⟩)
      rw [← Option.some.inj he]
  · intro e _
    exact errOnce_isSome _ _
  · intro e _
    exact errOnce_isSome _ _
  · intro e fs _
    exact errOnce_isSome _ _
  · intro r fs he
    rw [← (PipeStatus.done.inj he).2]
    exact hall
  · intro sts0 hi0
    exact PipeStatus.noConfusion hi0
  · intro r fs he
    refine Or.inl ?_
    rw [← (PipeStatus.done.inj he).2, List.length_set]
    exact h.lenInner sts hps

theorem inv_stepInner (cfg : Config) (i : Nat) (st : MState) (h : MInv cfg st) :
    MInv cfg (stepInner cfg i st) := by
  cases hps : st.pipeSt with
  | fetching rem =>
    have hst : stepInner cfg i st = st := by simp only [stepInner, hps]
    rw [hst]
    exact h
  | done r fs =>
    have hst : stepInner cfg i st = st := by simp only [stepInner, hps]
    rw [hst]
    exact h
  | inner sts =>
    cases hget : sts[i]? with
    | none =>
      have hst : stepInner cfg i st = st := by
        simp only [stepInner, hps, hget]
      rw [hst]
      exact h
    | some ts =>
      cases hspec : (innerSpecs cfg)[i]? with
      | none =>
        have hst : stepInner cfg i st = st := by
          simp only [stepInner, hps, hget, hspec]
        rw [hst]
        exact h
      | some spec =>
        have hi : i < sts.length := ltOfGet sts i ts hget
        cases ts with
        | done r0 =>
          simp only [stepInner, hps, hget, hspec, stepTask]
          have hd2 : TStatus.done r0 = TStatus.done none →
              ∀ x ∈ spec.samples, x ∈ st.sink ++ ([] : List Sample) := by
            intro hts' x hx
            rw [TStatus.done.inj hts'] at hget
            exact List.mem_append_left _
              (h.innerDone sts (Or.inl hps) i spec hspec hget x hx)
          by_cases hall : (sts.set i (TStatus.done r0)).all TStatus.isDone = true
          · rw [if_pos hall]
            cases hie : st.innerErr with
            | none =>
              simp only [fireOuter]
              exact inv_innerFireNil cfg i st sts spec _ [] none h hps hspec hi hd2 hall
            | some f =>
              simp only [fireOuter]
              exact inv_innerFire cfg i st sts spec _ [] f (some f) h hps hspec hi hd2 hall
          · rw [if_neg hall]
            exact inv_innerNoFire cfg i st sts spec _ [] st.innerErr h hps hspec hi hd2
        | running rem0 =>
          cases rem0 with
          | nil =>
            simp only [stepInner, hps, hget, hspec, stepTask]
            have hd2 : TStatus.done none = TStatus.done none →
                ∀ x ∈ spec.samples, x ∈ st.sink ++ spec.samples := by
              intro _ x hx
              exact List.mem_append_right _ hx
            by_cases hall : (sts.set i (TStatus.done none)).all TStatus.isDone = true
            · rw [if_pos hall]
              cases hie : st.innerErr with
              | none =>
                simp only [fireOuter]
                exact inv_innerFireNil cfg i st sts spec _ spec.samples none
                  h hps hspec hi hd2 hall
              | some f =>
                simp only [fireOuter]
                exact inv_innerFire cfg i st sts spec _ spec.samples f (some f)
                  h hps hspec hi hd2 hall
            · rw [if_neg hall]
              exact inv_innerNoFire cfg i st sts spec _ spec.samples st.innerErr
                h hps hspec hi hd2
          | cons c0 rest0 =>
            by_cases hcin : innerCancelled st = true
            · simp only [stepInner, hps, hget, hspec, stepTask, if_pos hcin]
              have hd2 : TStatus.done (some (Err.wrapped spec.label Err.canceled)) =
                  TStatus.done none →
                  ∀ x ∈ spec.samples, x ∈ st.sink ++ ([] : List Sample) := by
                intro hts'
                exact absurd (TStatus.done.inj hts') (fun hx => Option.noConfusion hx)
              by_cases hall : (sts.set i (TStatus.done
                  (some (Err.wrapped spec.label Err.canceled)))).all TStatus.isDone = true
              · rw [if_pos hall]
                cases hie : st.innerErr with
                | none =>
                  simp only [errOnce, fireOuter]
                  exact inv_innerFire cfg i st sts spec _ []
                    (Err.wrapped spec.label Err.canceled)
                    (some (Err.wrapped spec.label Err.canceled))
                    h hps hspec hi hd2 hall
                | some f =>
                  simp only [errOnce, fireOuter]
                  exact inv_innerFire cfg i st sts spec _ [] f (some f)
                    h hps hspec hi hd2 hall
              · rw [if_neg hall]
                exact inv_innerNoFire cfg i st sts spec _ []
                  (errOnce st.innerErr (Err.wrapped spec.label Err.canceled))
                  h hps hspec hi hd2
            · cases c0 with
              | some e0 =>
                simp only [stepInner, hps, hget, hspec, stepTask, if_neg hcin]
                have hd2 : TStatus.done (some (Err.wrapped spec.label e0)) =
                    TStatus.done none →
                    ∀ x ∈ spec.samples, x ∈ st.sink ++ ([] : List Sample) := by
                  intro hts'
                  exact absurd (TStatus.done.inj hts') (fun hx => Option.noConfusion hx)
                by_cases hall : (sts.set i (TStatus.done
                    (some (Err.wrapped spec.label e0)))).all TStatus.isDone = true
                · rw [if_pos hall]
                  cases hie : st.innerErr with
                  | none =>
                    simp only [errOnce, fireOuter]
                    exact inv_innerFire cfg i st sts spec _ []
                      (Err.wrapped spec.label e0) (some (Err.wrapped spec.label e0))
                      h hps hspec hi hd2 hall
                  | some f =>
                    simp only [errOnce, fireOuter]
                    exact inv_innerFire cfg i st sts spec _ [] f (some f)
                      h hps hspec hi hd2 hall
                · rw [if_neg hall]
                  exact inv_innerNoFire cfg i st sts spec _ []
                    (errOnce st.innerErr (Err.wrapped spec.label e0))
                    h hps hspec hi hd2
              | none =>
                simp only [stepInner, hps, hget, hspec, stepTask, if_neg hcin]
                have hd2 : TStatus.running rest0 = TStatus.done none →
                    ∀ x ∈ spec.samples, x ∈ st.sink ++ ([] : List Sample) := by
                  intro hts'
                  exact absurd hts' (fun hx => TStatus.noConfusion hx)
                by_cases hall : (sts.set i (TStatus.running rest0)).all TStatus.isDone = true
                · exfalso
                  have hmem : TStatus.running rest0 ∈ sts.set i (TStatus.running rest0) :=
                    memOfGet _ i _ (setGet_self sts i _ hi)
                  have : TStatus.isDone (TStatus.running rest0) = true :=
                    List.all_eq_true.1 hall _ hmem
                  exact Bool.noConfusion this
                · rw [if_neg hall]
                  exact inv_innerNoFire cfg i st sts spec _ [] st.innerErr
                    h hps hspec hi hd2

theorem inv_step (cfg : Config) (st : MState) (c : Choice) (h : MInv cfg st) :
    MInv cfg (step cfg st c) := by
  cases c with
  | notif => exact inv_stepNotif cfg st h
  | issue => exact inv_stepIssue cfg st h
  | fetchStep => exact inv_stepFetch cfg st h
  | innerStep i => exact inv_stepInner cfg i st h

theorem inv_init (cfg : Config) : MInv cfg (initState cfg) := by
  refine ⟨?_, ?_, ?_, ?_, ?_, ?_, ?_, ?_, ?_, ?_⟩
  · intro hd
    exact TStatus.noConfusion hd
  · intro hd
    exact TStatus.noConfusion hd
  · intro sts hsts i spec hspec hdone x hx
    rcases hsts with hi0 | ⟨r, hr⟩
    · exact PipeStatus.noConfusion hi0
    · exact PipeStatus.noConfusion hr
  · intro e he
    exact Option.noConfusion he
  · intro e he
    exact TStatus.noConfusion he
  · intro e he
    exact TStatus.noConfusion he
  · intro e fs he
    exact PipeStatus.noConfusion he
  · intro r fs he
    exact PipeStatus.noConfusion he
  · intro sts hi0
    exact PipeStatus.noConfusion hi0
  · intro r fs he
    exact PipeStatus.noConfusion he

theorem inv_foldl (cfg : Config) :
    ∀ (sched : List Choice) (st : MState), MInv cfg st →
      MInv cfg (sched.foldl (step cfg) st)
  | [], st, h => h
  | c :: rest, st, h => inv_foldl cfg rest (step cfg st c) (inv_step cfg st c h)

theorem inv_run (cfg : Config) (sched : List Choice) : MInv cfg (run cfg sched) :=
  inv_foldl cfg sched (initState cfg) (inv_init cfg)

theorem getOfLt {α : Type} :
    ∀ (l : List α) (i : Nat), i < l.length → ∃ a, l[i]? = some a
  | [], i, h => by simp at h
  | x :: t, 0, _ => ⟨x, by simp⟩
  | x :: t, i + 1, h => by
    have h' : i < t.length := by simpa [List.length_cons] using h
    rcases getOfLt t i h' with ⟨a, ha⟩
    exact ⟨a, by simpa [List.getElem?_cons_succ] using ha⟩

theorem outerErr_stepNotif (cfg : Config) (st : MState) :
    (stepNotif cfg st).outerErr = st.outerErr ∨
      ∃ x, (stepNotif cfg st).outerErr = errOnce st.outerErr x := by
  rw [stepNotif]
  cases hts : st.notifSt with
  | done r => exact Or.inl rfl
  | running rem =>
    cases rem with
    | nil => exact Or.inl rfl
    | cons c rest =>
      by_cases hc : outerCancelled st = true
      · refine Or.inr ⟨Err.wrapped (notifSpec cfg).label Err.canceled, ?_⟩
        simp only [stepTask, if_pos hc, fireOuter]
      · cases c with
        | some e0 =>
          refine Or.inr ⟨Err.wrapped (notifSpec cfg).label e0, ?_⟩
          simp only [stepTask, if_neg hc, fireOuter]
        | none =>
          refine Or.inl ?_
          simp only [stepTask, if_neg hc, fireOuter]

theorem outerErr_stepIssue (cfg : Config) (st : MState) :
    (stepIssue cfg st).outerErr = st.outerErr ∨
      ∃ x, (stepIssue cfg st).outerErr = errOnce st.outerErr x := by
  rw [stepIssue]
  cases hts : st.issueSt with
  | done r => exact Or.inl rfl
  | running rem =>
    cases rem with
    | nil => exact Or.inl rfl
    | cons c rest =>
      by_cases hc : outerCancelled st = true
      · refine Or.inr ⟨Err.wrapped (issueSpec cfg).label Err.canceled, ?_⟩
        simp only [stepTask, if_pos hc, fireOuter]
      · cases c with
        | some e0 =>
          refine Or.inr ⟨Err.wrapped (issueSpec cfg).label e0, ?_⟩
          simp only [stepTask, if_neg hc, fireOuter]
        | none =>
          refine Or.inl ?_
          simp only [stepTask, if_neg hc, fireOuter]

theorem outerErr_stepFetch (cfg : Config) (st : MState) :
    (stepFetch cfg st).outerErr = st.outerErr ∨
      ∃ x, (stepFetch cfg st).outerErr = errOnce st.outerErr x := by
  rw [stepFetch]
  cases hps : st.pipeSt with
  | inner sts => exact Or.inl rfl
  | done r fs => exact Or.inl rfl
  | fetching rem =>
    cases rem with
    | nil => exact Or.inl rfl
    | cons c rest =>
      by_cases hc : outerCancelled st = true
      · refine Or.inr ⟨Err.wrapped "fetching repos" Err.canceled, ?_⟩
        simp only [if_pos hc, fireOuter]
      · cases c with
        | some e0 =>
          refine Or.inr ⟨Err.wrapped "fetching repos" e0, ?_⟩
          simp only [if_neg hc, fireOuter]
        | none =>
          refine Or.inl ?_
          simp only [if_neg hc]

theorem outerErr_stepInner (cfg : Config) (i : Nat) (st : MState) :
    (stepInner cfg i st).outerErr = st.outerErr ∨
      ∃ x, (stepInner cfg i st).outerErr = errOnce st.outerErr x := by
  cases hps : st.pipeSt with
  | fetching rem =>
    have hst : stepInner cfg i st = st := by simp only [stepInner, hps]
    rw [hst]
    exact Or.inl rfl
  | done r fs =>
    have hst : stepInner cfg i st = st := by simp only [stepInner, hps]
    rw [hst]
    exact Or.inl rfl
  | inner sts =>
    cases hget : sts[i]? with
    | none =>
      have hst : stepInner cfg i st = st := by simp only [stepInner, hps, hget]
      rw [hst]
      exact Or.inl rfl
    | some ts =>
      cases hspec : (innerSpecs cfg)[i]? with
      | none =>
        have hst : stepInner cfg i st = st := by simp only [stepInner, hps, hget, hspec]
        rw [hst]
        exact Or.inl rfl
      | some spec =>
        cases ts with
        | done r0 =>
          simp only [stepInner, hps, hget, hspec, stepTask]
          by_cases hall : (sts.set i (TStatus.done r0)).all TStatus.isDone = true
          · rw [if_pos hall]
            cases hie : st.innerErr with
            | none => exact Or.inl (by simp only [fireOuter])
            | some f => exact Or.inr ⟨f, by simp only [fireOuter]⟩
          · rw [if_neg hall]
            exact Or.inl rfl
        | running rem0 =>
          cases rem0 with
          | nil =>
            simp only [stepInner, hps, hget, hspec, stepTask]
            by_cases hall : (sts.set i (TStatus.done none)).all TStatus.isDone = true
            · rw [if_pos hall]
              cases hie : st.innerErr with
              | none => exact Or.inl (by simp only [fireOuter])
              | some f => exact Or.inr ⟨f, by simp only [fireOuter]⟩
            · rw [if_neg hall]
              exact Or.inl rfl
          | cons c0 rest0 =>
            by_cases hcin : innerCancelled st = true
            · simp only [stepInner, hps, hget, hspec, stepTask, if_pos hcin]
              by_cases hall : (sts.set i (TStatus.done
                  (some (Err.wrapped spec.label Err.canceled)))).all TStatus.isDone = true
              · rw [if_pos hall]
                cases hie : st.innerErr with
                | none =>
                  exact Or.inr ⟨Err.wrapped spec.label Err.canceled,
                    by simp only [errOnce, fireOuter]⟩
                | some f => exact Or.inr ⟨f, by simp only [errOnce, fireOuter]⟩
              · rw [if_neg hall]
                exact Or.inl rfl
            · cases c0 with
              | some e0 =>
                simp only [stepInner, hps, hget, hspec, stepTask, if_neg hcin]
                by_cases hall : (sts.set i (TStatus.done
                    (some (Err.wrapped spec.label e0)))).all TStatus.isDone = true
                · rw [if_pos hall]
                  cases hie : st.innerErr with
                  | none =>
                    exact Or.inr ⟨Err.wrapped spec.label e0,
                      by simp only [errOnce, fireOuter]⟩
                  | some f => exact Or.inr ⟨f, by simp only [errOnce, fireOuter]⟩
                · rw [if_neg hall]
                  exact Or.inl rfl
              | none =>
                simp only [stepInner, hps, hget, hspec, stepTask, if_neg hcin]
                by_cases hall : (sts.set i (TStatus.running rest0)).all TStatus.isDone = true
                · rw [if_pos hall]
                  cases hie : st.innerErr with
                  | none => exact Or.inl (by simp only [fireOuter])
                  | some f => exact Or.inr ⟨f, by simp only [fireOuter]⟩
                · rw [if_neg hall]
                  exact Or.inl rfl

theorem outerErr_step (cfg : Config) (st : MState) (c : Choice) :
    (step cfg st c).outerErr = st.outerErr ∨
      ∃ x, (step cfg st c).outerErr = errOnce st.outerErr x := by
  cases c with
  | notif => exact outerErr_stepNotif cfg st
  | issue => exact outerErr_stepIssue cfg st
  | fetchStep => exact outerErr_stepFetch cfg st
  | innerStep i => exact outerErr_stepInner cfg i st

theorem outer_sticky_step (cfg : Config) (st : MState) (c : Choice) (e : Err)
    (h : st.outerErr = some e) : (step cfg st c).outerErr = some e := by
  rcases outerErr_step cfg st c with h1 | ⟨x, h2⟩
  · rw [h1, h]
  · rw [h2, h]
    rfl

theorem outer_sticky_foldl (cfg : Config) (e : Err) :
    ∀ (ext : List Choice) (st : MState), st.outerErr = some e →
      ((ext.foldl (step cfg) st).outerErr = some e)
  | [], st, h => h
  | c :: rest, st, h =>
    outer_sticky_foldl cfg e rest (step cfg st c) (outer_sticky_step cfg st c e h)

theorem run_append (cfg : Config) (s t : List Choice) :
    run cfg (s ++ t) = t.foldl (step cfg) (run cfg s) := by
  rw [run, run, List.foldl_append]

theorem clean_stepNotif (cfg : Config) (st : MState) (h : CleanInv st) :
    CleanInv (stepNotif cfg st) := by
  obtain ⟨ho, hie, hn, his, hp⟩ := h
  rw [stepNotif]
  cases hts : st.notifSt with
  | done r =>
    exact ⟨ho, hie, by rw [hts] at hn; exact hn, his, hp⟩
  | running rem =>
    rw [hts] at hn
    cases rem with
    | nil => exact ⟨ho, hie, rfl, his, hp⟩
    | cons c rest =>
      have hc0 : c = none := hn c (List.mem_cons_self c rest)
      subst hc0
      have hcneg : ¬(outerCancelled st = true) := by
        rw [outerCancelled, ho]
        exact Bool.noConfusion
      simp only [stepTask, if_neg hcneg, fireOuter]
      exact ⟨ho, hie, fun c' hc' => hn c' (List.mem_cons_of_mem none hc'), his, hp⟩

theorem clean_stepIssue (cfg : Config) (st : MState) (h : CleanInv st) :
    CleanInv (stepIssue cfg st) := by
  obtain ⟨ho, hie, hn, his, hp⟩ := h
  rw [stepIssue]
  cases hts : st.issueSt with
  | done r =>
    exact ⟨ho, hie, hn, by rw [hts] at his; exact his, hp⟩
  | running rem =>
    rw [hts] at his
    cases rem with
    | nil => exact ⟨ho, hie, hn, rfl, hp⟩
    | cons c rest =>
      have hc0 : c = none := his c (List.mem_cons_self c rest)
      subst hc0
      have hcneg : ¬(outerCancelled st = true) := by
        rw [outerCancelled, ho]
        exact Bool.noConfusion
      simp only [stepTask, if_neg hcneg, fireOuter]
      exact ⟨ho, hie, hn, fun c' hc' => his c' (List.mem_cons_of_mem none hc'), hp⟩

theorem clean_stepFetch (cfg : Config) (st : MState) (hcfg : cleanConfig cfg)
    (h : CleanInv st) : CleanInv (stepFetch cfg st) := by
  obtain ⟨ho, hie, hn, his, hp⟩ := h
  rw [stepFetch]
  cases hps : st.pipeSt with
  | inner sts => exact ⟨ho, hie, hn, his, hp⟩
  | done r fs => exact ⟨ho, hie, hn, his, hp⟩
  | fetching rem =>
    rw [hps] at hp
    cases rem with
    | nil =>
      refine ⟨ho, hie, hn, his, ?_⟩
      intro t ht
      rcases List.mem_map.1 ht with ⟨s, hs, rfl⟩
      exact hcfg.2.2.2.2 s hs
    | cons c rest =>
      have hc0 : c = none := hp c (List.mem_cons_self c rest)
      subst hc0
      have hcneg : ¬(outerCancelled st = true) := by
        rw [outerCancelled, ho]
        exact Bool.noConfusion
      simp only [if_neg hcneg]
      exact ⟨ho, hie, hn, his, fun c' hc' => hp c' (List.mem_cons_of_mem none hc')⟩

theorem clean_stepInner (cfg : Config) (i : Nat) (st : MState) (h : CleanInv st) :
    CleanInv (stepInner cfg i st) := by
  obtain ⟨ho, hie, hn, his, hp⟩ := h
  cases hps : st.pipeSt with
  | fetching rem =>
    have hst : stepInner cfg i st = st := by simp only [stepInner, hps]
    rw [hst]
    exact ⟨ho, hie, hn, his, hp⟩
  | done r fs =>
    have hst : stepInner cfg i st = st := by simp only [stepInner, hps]
    rw [hst]
    exact ⟨ho, hie, hn, his, hp⟩
  | inner sts =>
    rw [hps] at hp
    cases hget : sts[i]? with
    | none =>
      have hst : stepInner cfg i st = st := by simp only [stepInner, hps, hget]
      rw [hst]
      exact ⟨ho, hie, hn, his, by rw [hps]; exact hp⟩
    | some ts =>
      cases hspec : (innerSpecs cfg)[i]? with
      | none =>
        have hst : stepInner cfg i st = st := by simp only [stepInner, hps, hget, hspec]
        rw [hst]
        exact ⟨ho, hie, hn, his, by rw [hps]; exact hp⟩
      | some spec =>
        have hi : i < sts.length := ltOfGet sts i ts hget
        have htsclean : TStatus.cleanSt ts := hp ts (memOfGet sts i ts hget)
        have hinner_false : ¬(innerCancelled st = true) := by
          rw [innerCancelled, ho, hie]
          exact Bool.noConfusion
        have hset : ∀ (t' : TStatus), TStatus.cleanSt t' →
            ∀ u ∈ sts.set i t', TStatus.cleanSt u := by
          intro t' hct u hu
          rcases List.mem_or_eq_of_mem_set hu with h1 | h1
          · exact hp u h1
          · rw [h1]
            exact hct
        cases ts with
        | done r0 =>
          simp only [stepInner, hps, hget, hspec, stepTask]
          by_cases hall : (sts.set i (TStatus.done r0)).all TStatus.isDone = true
          · rw [if_pos hall, hie]
            simp only [fireOuter]
            exact ⟨ho, rfl, hn, his, rfl, hset _ htsclean⟩
          · rw [if_neg hall]
            exact ⟨ho, hie, hn, his, hset _ htsclean⟩
        | running rem0 =>
          cases rem0 with
          | nil =>
            simp only [stepInner, hps, hget, hspec, stepTask]
            by_cases hall : (sts.set i (TStatus.done none)).all TStatus.isDone = true
            · rw [if_pos hall, hie]
              simp only [fireOuter]
              exact ⟨ho, rfl, hn, his, rfl, hset _ rfl⟩
            · rw [if_neg hall]
              exact ⟨ho, hie, hn, his, hset _ rfl⟩
          | cons c0 rest0 =>
            have hc0 : c0 = none := htsclean c0 (List.mem_cons_self c0 rest0)
            subst hc0
            simp only [stepInner, hps, hget, hspec, stepTask, if_neg hinner_false]
            by_cases hall : (sts.set i (TStatus.running rest0)).all TStatus.isDone = true
            · exfalso
              have hmem : TStatus.running rest0 ∈ sts.set i (TStatus.running rest0) :=
                memOfGet _ i _ (setGet_self sts i _ hi)
              have hbad : TStatus.isDone (TStatus.running rest0) = true :=
                List.all_eq_true.1 hall _ hmem
              exact Bool.noConfusion hbad
            · rw [if_neg hall]
              exact ⟨ho, hie, hn, his,
                hset _ (fun c' hc' => htsclean c' (List.mem_cons_of_mem none hc'))⟩

theorem clean_step (cfg : Config) (st : MState) (c : Choice) (hcfg : cleanConfig cfg)
    (h : CleanInv st) : CleanInv (step cfg st c) := by
  cases c with
  | notif => exact clean_stepNotif cfg st h
  | issue => exact clean_stepIssue cfg st h
  | fetchStep => exact clean_stepFetch cfg st hcfg h
  | innerStep i => exact clean_stepInner cfg i st h

theorem clean_init (cfg : Config) (hcfg : cleanConfig cfg) : CleanInv (initState cfg) := by
  refine ⟨rfl, rfl, ?_, ?_, ?_⟩
  · intro c hc
    rcases List.mem_cons.1 hc with h1 | h1
    · rw [h1]
      exact hcfg.1
    · exact absurd h1 (List.not_mem_nil c)
  · intro c hc
    rcases List.mem_cons.1 hc with h1 | h1
    · rw [h1]
      exact hcfg.2.1
    · rcases List.mem_cons.1 h1 with h2 | h2
      · rw [h2]
        exact hcfg.2.2.1
      · exact absurd h2 (List.not_mem_nil c)
  · exact hcfg.2.2.2.1

theorem clean_foldl (cfg : Config) (hcfg : cleanConfig cfg) :
    ∀ (sched : List Choice) (st : MState), CleanInv st →
      CleanInv (sched.foldl (step cfg) st)
  | [], st, h => h
  | c :: rest, st, h =>
    clean_foldl cfg hcfg rest (step cfg st c) (clean_step cfg st c hcfg h)

theorem clean_run (cfg : Config) (sched : List Choice) (hcfg : cleanConfig cfg) :
    CleanInv (run cfg sched) :=
  clean_foldl cfg hcfg sched (initState cfg) (clean_init cfg hcfg)

theorem failed_iff (t : TStatus) : t.failed = true ↔ ∃ e, t = TStatus.done (some e) := by
  cases t with
  | running rem => simp [TStatus.failed]
  | done r =>
    cases r with
    | none => simp [TStatus.failed]
    | some e => simp [TStatus.failed]

/-- C3 (amended): the orchestrator concludes only after every launched task
(top-level and nested) has returned; its final result is then Failed
exactly when some task failed, and the carried error is the result of one
of the outer group's three goroutines — already wrapped with a collector,
fetch, or repository label (the repo pipeline carries the nested group's
first recorded error).  The outer slot is first-write-wins: once recorded
it survives any schedule extension.  It is therefore the first error
returned *to the outer group*, which — because a nested failure reaches the
outer group only when the whole nested fan-out finishes — need not be the
temporally first error of the cycle. -/
theorem C3_wait_result_amended (cfg : Config) (sched : List Choice) :
    (allDone (run cfg sched) = true →
      ((waitResult (run cfg sched)).isSome = true ↔
        someTaskFailed (run cfg sched) = true)) ∧
    (∀ e, waitResult (run cfg sched) = some e →
      (run cfg sched).notifSt = .done (some e) ∨
      (run cfg sched).issueSt = .done (some e) ∨
      ∃ fs, (run cfg sched).pipeSt = .done (some e) fs) ∧
    (∀ (e : Err) (ext : List Choice), waitResult (run cfg sched) = some e →
      waitResult (run cfg (sched ++ ext)) = some e) := by
  have hinv := inv_run cfg sched
  refine ⟨?_, ?_, ?_⟩
  · intro _
    constructor
    · intro hsome
      rcases Option.isSome_iff_exists.1 hsome with ⟨e, he⟩
      rcases hinv.outerSrc e he with h1 | h2 | ⟨fs, h3⟩
      · simp [someTaskFailed, h1, TStatus.failed]
      · simp [someTaskFailed, h2, TStatus.failed]
      · simp [someTaskFailed, h3]
    · intro hfail
      by_cases h1 : (run cfg sched).notifSt.failed = true
      · rcases (failed_iff _).1 h1 with ⟨e, he⟩
        exact hinv.notifFired e he
      · by_cases h2 : (run cfg sched).issueSt.failed = true
        · rcases (failed_iff _).1 h2 with ⟨e, he⟩
          exact hinv.issueFired e he
        · have h1' : (run cfg sched).notifSt.failed = false := by
            simpa using h1
          have h2' : (run cfg sched).issueSt.failed = false := by
            simpa using h2
          rw [someTaskFailed, h1', h2'] at hfail
          cases hp : (run cfg sched).pipeSt with
          | fetching rem =>
            rw [hp] at hfail
            exact Bool.noConfusion hfail
          | inner sts =>
            rw [hp] at hfail
            exact Bool.noConfusion hfail
          | done r fs =>
            cases r with
            | some e => exact hinv.pipeFired e fs hp
            | none =>
              rw [hp] at hfail
              exact Bool.noConfusion hfail
  · intro e he
    exact hinv.outerSrc e he
  · intro e ext he
    rw [waitResult, run_append]
    exact outer_sticky_foldl cfg e ext (run cfg sched) he

/-- C3 witness: in a cycle whose only failure is the notification call, the
concluded orchestrator reports Failed. -/
theorem C3_wait_result_amended_witness :
    (waitResult (run witConfigB witSchedB)).isSome = true := by
  have h := (C3_wait_result_amended witConfigB witSchedB).1 (by decide)
  exact h.mpr (by decide)

/-- C3 counterexample: the claim fails on the code.  The per-repository
workflow task fails first (its wrapped error is already recorded in the
inner group while the notification task is still running and the outer slot
is empty), yet the orchestrator's final result carries the notification
error, which was encountered later: the nested error reached the outer
group only when the whole inner fan-out finished. -/
theorem C3_first_error_cex :
    (run cexConfigB cexSchedBpre).innerErr = some wfErrB ∧
    (run cexConfigB cexSchedBpre).pipeSt =
      PipeStatus.inner [TStatus.running [], TStatus.done (some wfErrB)] ∧
    (run cexConfigB cexSchedBpre).notifSt = TStatus.running [some (Err.api 1)] ∧
    (run cexConfigB cexSchedBpre).outerErr = none ∧
    allDone (run cexConfigB cexSchedBfull) = true ∧
    waitResult (run cexConfigB cexSchedBfull) = some notifErrB ∧
    notifErrB ≠ wfErrB := by
  decide

/-- C1 (amended): a task failure cancels the shared errgroup context, so a
sibling with network calls still pending fails them with a cancellation
error and writes nothing — siblings are not protected from cancellation.
What does hold: every task that returns nil has written all its samples to
the sink (results of completed tasks are never discarded, even when
another task failed); when every scripted call succeeds, no error is
recorded anywhere and no task fails; and in a completed all-successful
cycle every task's samples are in the sink. -/
theorem C1_best_effort_amended (cfg : Config) (sched : List Choice) :
    ((run cfg sched).notifSt = .done none →
      ∀ x ∈ (notifSpec cfg).samples, x ∈ (run cfg sched).sink) ∧
    ((run cfg sched).issueSt = .done none →
      ∀ x ∈ (issueSpec cfg).samples, x ∈ (run cfg sched).sink) ∧
    (∀ (sts : List TStatus),
      ((run cfg sched).pipeSt = .inner sts ∨ ∃ r, (run cfg sched).pipeSt = .done r sts) →
      ∀ (i : Nat) (spec : TaskSpec), (innerSpecs cfg)[i]? = some spec →
        sts[i]? = some (TStatus.done none) →
        ∀ x ∈ spec.samples, x ∈ (run cfg sched).sink) ∧
    (cleanConfig cfg →
      (run cfg sched).outerErr = none ∧ (run cfg sched).innerErr = none ∧
        someTaskFailed (run cfg sched) = false) ∧
    (cleanConfig cfg → allDone (run cfg sched) = true →
      (∀ x ∈ (notifSpec cfg).samples, x ∈ (run cfg sched).sink) ∧
      (∀ x ∈ (issueSpec cfg).samples, x ∈ (run cfg sched).sink) ∧
      (∀ (i : Nat) (spec : TaskSpec), (innerSpecs cfg)[i]? = some spec →
        ∀ x ∈ spec.samples, x ∈ (run cfg sched).sink)) := by
  have hinv := inv_run cfg sched
  refine ⟨hinv.notifDone, hinv.issueDone, hinv.innerDone, ?_, ?_⟩
  · intro hcfg
    obtain ⟨ho, hie, hn, his, hp⟩ := clean_run cfg sched hcfg
    refine ⟨ho, hie, ?_⟩
    have h1 : (run cfg sched).notifSt.failed = false := by
      cases ht : (run cfg sched).notifSt with
      | running rem => rfl
      | done r =>
        rw [ht] at hn
        rw [hn]
        rfl
    have h2 : (run cfg sched).issueSt.failed = false := by
      cases ht : (run cfg sched).issueSt with
      | running rem => rfl
      | done r =>
        rw [ht] at his
        rw [his]
        rfl
    have h3 : (match (run cfg sched).pipeSt with
        | PipeStatus.done (some _) _ => true | _ => false) = false := by
      cases hps : (run cfg sched).pipeSt with
      | fetching rem => rfl
      | inner sts => rfl
      | done r fs =>
        rw [hps] at hp
        rcases hp with ⟨hr, -⟩
        rw [hr]
    rw [someTaskFailed, h1, h2, h3]
    rfl
  · intro hcfg hdone
    obtain ⟨ho, hie, hn, his, hp⟩ := clean_run cfg sched hcfg
    rw [allDone] at hdone
    simp only [Bool.and_eq_true] at hdone
    obtain ⟨⟨hd1, hd2⟩, hd3⟩ := hdone
    have hnd : (run cfg sched).notifSt = .done none := by
      cases ht : (run cfg sched).notifSt with
      | running rem =>
        rw [ht] at hd1
        exact Bool.noConfusion hd1
      | done r =>
        rw [ht] at hn
        rw [hn]
    have hid : (run cfg sched).issueSt = .done none := by
      cases ht : (run cfg sched).issueSt with
      | running rem =>
        rw [ht] at hd2
        exact Bool.noConfusion hd2
      | done r =>
        rw [ht] at his
        rw [his]
    refine ⟨hinv.notifDone hnd, hinv.issueDone hid, ?_⟩
    intro i spec hspec x hx
    cases hps : (run cfg sched).pipeSt with
    | fetching rem =>
      rw [hps] at hd3
      exact Bool.noConfusion hd3
    | inner sts =>
      rw [hps] at hd3
      exact Bool.noConfusion hd3
    | done r fs =>
      rw [hps] at hp
      rcases hp with ⟨hr, hts⟩
      have hlen : fs.length = (innerSpecs cfg).length := by
        rcases hinv.lenDone r fs hps with hl | hl
        · exact hl
        · exact absurd hr hl
      have hilt : i < fs.length := by
        rw [hlen]
        exact ltOfGet _ i spec hspec
      rcases getOfLt fs i hilt with ⟨t, htg⟩
      have htmem : t ∈ fs := memOfGet fs i t htg
      have htdone : t.isDone = true :=
        List.all_eq_true.1 (hinv.pipeDoneAll r fs hps) t htmem
      have htclean := hts t htmem
      have ht' : t = TStatus.done none := by
        cases t with
        | running rem2 => exact Bool.noConfusion htdone
        | done r2 =>
          rw [htclean]
      rw [ht'] at htg
      exact hinv.innerDone fs (Or.inr ⟨r, hps⟩) i spec hspec htg x hx

/-- C1 witness: in a fully successful completed cycle, the notification
sample (2 unread notifications) is in the sink, derived through the amended
theorem. -/
theorem C1_best_effort_amended_witness :
    ({ metric := "github_notification_count", labels := [("unread", "true")],
       value := 2 } : Sample) ∈ (run witConfigA witSchedA).sink := by
  have h := C1_best_effort_amended witConfigA witSchedA
  have hclean : cleanConfig witConfigA := by
    refine ⟨rfl, rfl, rfl, ?_, ?_⟩ <;> decide
  exact (h.2.2.2.2 hclean (by decide)).1 _ (by decide)

/-- C1 counterexample: the claim fails on the code.  When the notification
call fails first, the issue task — a sibling in flight with its network
calls still pending — fails with a wrapped cancellation error (the
`errgroup.WithContext` context was cancelled) and none of its samples are
written to the sink, even though the whole cycle ran to completion. -/
theorem C1_cancellation_cex :
    allDone (run cexConfigA cexSchedA) = true ∧
    (run cexConfigA cexSchedA).notifSt =
      TStatus.done (some (Err.wrapped "notifications metrics" (Err.api 1))) ∧
    (run cexConfigA cexSchedA).issueSt =
      TStatus.done (some (Err.wrapped "issue metrics" Err.canceled)) ∧
    (issueSpec cexConfigA).samples ≠ [] ∧
    ∀ x ∈ (issueSpec cexConfigA).samples, x ∉ (run cexConfigA cexSchedA).sink := by
  decide

end GithubExporter
